import Mathlib

/-!
Verification of the svcs version-control core (`src/vcs/src/core`) against its
natural-language specification.  Byte buffers are modelled as `List Nat`
(each element a byte value), C strings as `String`, the filesystem as an
association list from path to file content, and the SHA3-256 digest of the
external OpenSSL library as an uninterpreted function parameter
`H : Bytes → Bytes`.  Fallible C functions returning `svcs_error_t` are
modelled with `Except SvcsError`.
-/

namespace SVCS

/-- Byte buffers (`void* + size_t` in the C sources); each element is one byte. -/
abbrev Bytes := List Nat

/-- The `svcs_error_t` enumeration from `include/svcs.h`. -/
inductive SvcsError
  | genErr     -- SVCS_ERROR
  | notFound   -- SVCS_ERROR_NOT_FOUND
  | existsErr  -- SVCS_ERROR_EXISTS
  | invalid    -- SVCS_ERROR_INVALID
  | ioError    -- SVCS_ERROR_IO
  | memory     -- SVCS_ERROR_MEMORY
  | corrupt    -- SVCS_ERROR_CORRUPT
  deriving DecidableEq, Repr

/-- The all-zero 32-byte hash produced by `svcs_hash_init` (the "no object" sentinel). -/
def zeroHash : Bytes := List.replicate 32 0

/-! ### Hex encoding and decoding (`src/core/hash.c`) -/

/-- One lowercase hex digit, as printed by `sprintf("%02x", ...)`. -/
def hexDigitChar (n : Nat) : Char := Char.ofNat (if n < 10 then 48 + n else 87 + n)

/-- The 64 hex characters written by `svcs_hash_to_string` (two lowercase
digits per byte). -/
def hashHexChars (h : Bytes) : List Char :=
  h.foldr (fun b acc => hexDigitChar (b / 16 % 16) :: hexDigitChar (b % 16) :: acc) []

/-- `svcs_hash_to_string` from `src/core/hash.c`: 64 lowercase hex characters. -/
def svcs_hash_to_string (h : Bytes) : String := ⟨hashHexChars h⟩

/-- `isspace` bytes skipped by `strtol`. -/
def isSpaceChar (c : Char) : Bool :=
  c = ' ' || c = '\t' || c = '\n' || c = '\x0d' || c = '\x0b' || c = '\x0c'

/-- Value of a single hex digit character, if it is one. -/
def hexVal? (c : Char) : Option Nat :=
  if 48 ≤ c.toNat ∧ c.toNat ≤ 57 then some (c.toNat - 48)
  else if 97 ≤ c.toNat ∧ c.toNat ≤ 102 then some (c.toNat - 87)
  else if 65 ≤ c.toNat ∧ c.toNat ≤ 70 then some (c.toNat - 55)
  else none

/-- Accumulate the maximal run of hex digits, as `strtol` does. -/
def hexRunVal (acc : Nat) : List Char → Nat
  | [] => acc
  | c :: rest =>
    match hexVal? c with
    | some v => hexRunVal (acc * 16 + v) rest
    | none => acc

/-- Magnitude part of `strtol(s, NULL, 16)`: an optional `0x`/`0X` prefix,
then the maximal run of hex digits (empty run yields 0). -/
def strtolHexMag : List Char → Nat
  | '0' :: 'x' :: rest => hexRunVal 0 rest
  | '0' :: 'X' :: rest => hexRunVal 0 rest
  | s => hexRunVal 0 s

/-- Model of `strtol(s, NULL, 16)`: skip leading whitespace, optional sign,
then the hex magnitude.  Unparsable input yields 0 — `strtol` reports no
error to this caller. -/
def strtolHex (s : List Char) : Int :=
  match s.dropWhile isSpaceChar with
  | '-' :: rest => -(strtolHexMag rest : Int)
  | '+' :: rest => (strtolHexMag rest : Int)
  | rest => (strtolHexMag rest : Int)

/-- `svcs_hash_from_string` from `src/core/hash.c`: reject length ≠ 64
(`SVCS_HASH_HEX_SIZE - 1`), then parse each 2-character chunk with
`strtol(..., 16)` and cast to `uint8_t` (reduction mod 256).  Note that the
return value of `strtol` is taken as-is: non-hex chunks parse to 0. -/
def svcs_hash_from_string (s : String) : Except SvcsError Bytes :=
  if s.length ≠ 64 then .error .invalid
  else .ok ((List.range 32).map fun i =>
    ((strtolHex ((s.toList.drop (2 * i)).take 2)) % 256).toNat)

/-- A lowercase hex character (digit or `a`-`f`). -/
def isLowerHexChar (c : Char) : Bool :=
  (48 ≤ c.toNat ∧ c.toNat ≤ 57) || (97 ≤ c.toNat ∧ c.toNat ≤ 102)

/-! #### Lemmas about hex encode/decode -/

lemma hashHexChars_cons (b : Nat) (t : Bytes) :
    hashHexChars (b :: t) =
      hexDigitChar (b / 16 % 16) :: hexDigitChar (b % 16) :: hashHexChars t := rfl

lemma hashHexChars_length (h : Bytes) : (hashHexChars h).length = 2 * h.length := by
  induction h with
  | nil => rfl
  | cons b t ih => simp [hashHexChars_cons, ih]; ring

lemma hexVal?_hexDigitChar (n : Nat) (hn : n < 16) : hexVal? (hexDigitChar n) = some n := by
  interval_cases n <;> rfl

lemma isLowerHexChar_hexDigitChar (n : Nat) (hn : n < 16) :
    isLowerHexChar (hexDigitChar n) = true := by
  interval_cases n <;> rfl

lemma isSpaceChar_hexDigitChar (n : Nat) (hn : n < 16) :
    isSpaceChar (hexDigitChar n) = false := by
  interval_cases n <;> rfl

/-- Decoding a two-hex-digit chunk produced by the encoder. -/
lemma strtolHex_chunk (hi lo : Nat) (hhi : hi < 16) (hlo : lo < 16) :
    strtolHex [hexDigitChar hi, hexDigitChar lo] = (16 * hi + lo : Nat) := by
  interval_cases hi <;> interval_cases lo <;> decide

lemma hashHexChars_chunk :
    ∀ (h : Bytes) (i : Nat), i < h.length →
      ((hashHexChars h).drop (2 * i)).take 2 =
        [hexDigitChar (h.getD i 0 / 16 % 16), hexDigitChar (h.getD i 0 % 16)] := by
  intro h
  induction h with
  | nil => intro i hi; simp at hi
  | cons b t ih =>
    intro i hi
    cases i with
    | zero => simp [hashHexChars_cons]
    | succ n =>
      have h2 : 2 * (n + 1) = (2 * n) + 1 + 1 := by ring
      simp only [hashHexChars_cons, h2, List.drop_succ_cons, List.getD_cons_succ]
      exact ih n (by simpa using hi)

lemma hashHexChars_lower (h : Bytes) :
    ∀ c ∈ hashHexChars h, isLowerHexChar c = true := by
  induction h with
  | nil => intro c hc; simp [hashHexChars] at hc
  | cons b t ih =>
    intro c hc
    rw [hashHexChars_cons, List.mem_cons, List.mem_cons] at hc
    rcases hc with hc | hc | hc
    · exact hc ▸ isLowerHexChar_hexDigitChar _ (Nat.mod_lt _ (by norm_num))
    · exact hc ▸ isLowerHexChar_hexDigitChar _ (Nat.mod_lt _ (by norm_num))
    · exact ih c hc

lemma to_string_length (h : Bytes) (hlen : h.length = 32) :
    (svcs_hash_to_string h).length = 64 := by
  show (hashHexChars h).length = 64
  rw [hashHexChars_length, hlen]

/-- C6 — amended.  Hex round-trip: `svcs_hash_from_string (svcs_hash_to_string h) = h`
for every 32-byte hash; the encoding is 64 lowercase hex characters; decoding
rejects every string whose length is not 64.  (The original claim also said
decoding rejects strings containing non-hex characters; the counterexample
`C6_counterexample` shows it does not.) -/
theorem C6_hex_roundtrip (h : Bytes) (hlen : h.length = 32) (hb : ∀ b ∈ h, b < 256) :
    svcs_hash_from_string (svcs_hash_to_string h) = .ok h ∧
    (svcs_hash_to_string h).length = 64 ∧
    (∀ c ∈ (svcs_hash_to_string h).toList, isLowerHexChar c = true) ∧
    (∀ s : String, s.length ≠ 64 → svcs_hash_from_string s = .error .invalid) := by
  refine ⟨?_, to_string_length h hlen, hashHexChars_lower h, ?_⟩
  · have h64 := to_string_length h hlen
    rw [svcs_hash_from_string, if_neg (by rw [h64]; exact fun hcon => absurd rfl hcon)]
    congr 1
    apply List.ext_getElem
    · simpa using hlen.symm
    · intro i h1 h2
      have hih : i < h.length := h2
      have htl : (svcs_hash_to_string h).toList = hashHexChars h := rfl
      simp only [List.getElem_map, List.getElem_range, htl]
      have hchunk := hashHexChars_chunk h i hih
      have hgetD : h.getD i 0 = h[i] := List.getD_eq_getElem h 0 hih
      rw [hgetD] at hchunk
      have hb256 : h[i] < 256 := hb _ (List.getElem_mem hih)
      rw [hchunk, strtolHex_chunk _ _ (Nat.mod_lt _ (by norm_num))
        (Nat.mod_lt _ (by norm_num))]
      have hval : 16 * (h[i] / 16 % 16) + h[i] % 16 = h[i] := by omega
      rw [hval]
      omega
  · intro s hs
    rw [svcs_hash_from_string, if_pos hs]

/-- Witness for C6 at the zero hash. -/
theorem C6_hex_roundtrip_witness :
    zeroHash.length = 32 ∧
      (svcs_hash_from_string (svcs_hash_to_string zeroHash) = .ok zeroHash ∧
       (svcs_hash_to_string zeroHash).length = 64 ∧
       (∀ c ∈ (svcs_hash_to_string zeroHash).toList, isLowerHexChar c = true) ∧
       (∀ s : String, s.length ≠ 64 → svcs_hash_from_string s = .error .invalid)) :=
  ⟨by decide, C6_hex_roundtrip zeroHash (by decide) (by decide)⟩

/-- C6 — counterexample.  The claim says `svcs_hash_from_string` fails on any
input containing a non-hexadecimal character.  It does not: on a string of 64
`z` characters every 2-character chunk parses to 0 via `strtol`, and the call
succeeds, returning the zero hash. -/
theorem C6_counterexample :
    svcs_hash_from_string ⟨List.replicate 64 'z'⟩ = .ok zeroHash := rfl

/-! ### Compression (`src/core/compress.c`)

The wrappers `svcs_compress` / `svcs_decompress` call the external zlib
functions `compress` / `uncompress`.  zlib itself is not part of this
repository; it is modelled from its documented contract as a concrete,
executable, round-trippable self-delimiting codec with a checksum trailer:
a 2-byte stream header, the payload, and a 2-byte checksum.  `uncompress`
respects a destination-buffer size, failing with `Z_BUF_ERROR` when the
decoded payload would not fit, and with `Z_DATA_ERROR` on malformed input. -/

/-- Checksum trailer of the modelled codec (stands in for zlib's Adler-32). -/
def adlerCk (x : Bytes) : Nat := (x.foldl (fun a b => a + b + 1) 1) % 65521

/-- Model of zlib `compress` (always succeeds on valid arguments). -/
def zlibCompress (x : Bytes) : Bytes :=
  120 :: 156 :: (x ++ [adlerCk x / 256 % 256, adlerCk x % 256])

/-- Decode a modelled zlib stream: check the header and checksum. -/
def zlibPayload? (input : Bytes) : Option Bytes :=
  match input with
  | 120 :: 156 :: rest =>
    if rest.length ≥ 2 then
      let payload := rest.take (rest.length - 2)
      let ck := rest.drop (rest.length - 2)
      if ck = [adlerCk payload / 256 % 256, adlerCk payload % 256] then some payload
      else none
    else none
  | _ => none

/-- zlib status codes relevant to `svcs_decompress`. -/
inductive ZStatus
  | zBufError
  | zDataError
  deriving DecidableEq, Repr

/-- Model of zlib `uncompress` with a destination buffer of `bufsize` bytes. -/
def zlibUncompress (input : Bytes) (bufsize : Nat) : Except ZStatus Bytes :=
  match zlibPayload? input with
  | none => .error .zDataError
  | some p => if p.length > bufsize then .error .zBufError else .ok p

/-- `svcs_compress` from `src/core/compress.c`: rejects nil/empty input with
`SVCS_ERROR_INVALID`, otherwise compresses. -/
def svcs_compress (input : Bytes) : Except SvcsError Bytes :=
  if input.length = 0 then .error .invalid
  else .ok (zlibCompress input)

/-- The retry loop of `svcs_decompress`: double the buffer while `uncompress`
reports `Z_BUF_ERROR`; any other failure becomes the generic `SVCS_ERROR`.
The C loop has no fuel; the fuel here is structural only and never runs out
for streams of this codec (the initial buffer `4 * input_size` already
exceeds any payload length). -/
def uncompressLoop (input : Bytes) : Nat → Nat → Except SvcsError Bytes
  | 0, bufsize =>
    match zlibUncompress input bufsize with
    | .ok p => .ok p
    | .error _ => .error .genErr
  | fuel + 1, bufsize =>
    match zlibUncompress input bufsize with
    | .ok p => .ok p
    | .error .zBufError => uncompressLoop input fuel (bufsize * 2)
    | .error .zDataError => .error .genErr

/-- `svcs_decompress` from `src/core/compress.c`: rejects empty input with
`SVCS_ERROR_INVALID`, starts with a buffer of `input_size * 4` and doubles on
`Z_BUF_ERROR`. -/
def svcs_decompress (input : Bytes) : Except SvcsError Bytes :=
  if input.length = 0 then .error .invalid
  else uncompressLoop input input.length (input.length * 4)

lemma zlibPayload?_compress (x : Bytes) : zlibPayload? (zlibCompress x) = some x := by
  have hlen : (x ++ [adlerCk x / 256 % 256, adlerCk x % 256]).length = x.length + 2 := by
    simp
  have htake : (x ++ [adlerCk x / 256 % 256, adlerCk x % 256]).take
      ((x ++ [adlerCk x / 256 % 256, adlerCk x % 256]).length - 2) = x := by
    rw [hlen]
    simp [List.take_left x [adlerCk x / 256 % 256, adlerCk x % 256]]
  have hdrop : (x ++ [adlerCk x / 256 % 256, adlerCk x % 256]).drop
      ((x ++ [adlerCk x / 256 % 256, adlerCk x % 256]).length - 2) =
      [adlerCk x / 256 % 256, adlerCk x % 256] := by
    rw [hlen]
    simp [List.drop_left x [adlerCk x / 256 % 256, adlerCk x % 256]]
  simp only [zlibPayload?, zlibCompress]
  rw [if_pos (by omega), htake, hdrop, if_pos rfl]

lemma uncompressLoop_ok (input : Bytes) (p : Bytes) (fuel bufsize : Nat)
    (h : zlibUncompress input bufsize = .ok p) :
    uncompressLoop input fuel bufsize = .ok p := by
  cases fuel <;> simp [uncompressLoop, h]

lemma uncompressLoop_data_error (input : Bytes) (fuel bufsize : Nat)
    (h : zlibPayload? input = none) :
    uncompressLoop input fuel bufsize = .error .genErr := by
  cases fuel <;> simp [uncompressLoop, zlibUncompress, h]

/-- C5 — amended.  For every non-empty byte sequence `x`, `svcs_compress x`
succeeds and `svcs_decompress (svcs_compress x)` returns exactly `x`; on
malformed (non-stream) input `svcs_decompress` fails, with the generic
`SVCS_ERROR` (not `SVCS_ERROR_CORRUPT`).  Empty input is rejected by both
functions with `SVCS_ERROR_INVALID` (counterexample `C5_counterexample` to
the original "including the empty sequence" wording). -/
theorem C5_codec_roundtrip (x : Bytes) (hx : x ≠ []) :
    svcs_compress x = .ok (zlibCompress x) ∧
    svcs_decompress (zlibCompress x) = .ok x ∧
    (∀ y : Bytes, y ≠ [] → zlibPayload? y = none → svcs_decompress y = .error .genErr) ∧
    svcs_compress [] = .error .invalid ∧
    svcs_decompress [] = .error .invalid := by
  have hxlen : x.length ≠ 0 := fun hcon => hx (List.length_eq_zero.mp hcon)
  refine ⟨by simp [svcs_compress, hxlen], ?_, ?_, rfl, rfl⟩
  · have hclen : (zlibCompress x).length = x.length + 4 := by simp [zlibCompress]
    have hdec : zlibUncompress (zlibCompress x) ((zlibCompress x).length * 4) = .ok x := by
      rw [zlibUncompress, zlibPayload?_compress]
      simp only [hclen]
      rw [if_neg (by omega)]
    rw [svcs_decompress, if_neg (by omega)]
    exact uncompressLoop_ok _ _ _ _ hdec
  · intro y hy hmal
    have hylen : y.length ≠ 0 := fun hcon => hy (List.length_eq_zero.mp hcon)
    rw [svcs_decompress, if_neg hylen]
    exact uncompressLoop_data_error _ _ _ hmal

/-- Witness for C5 at the one-byte input `[1]`. -/
theorem C5_codec_roundtrip_witness :
    ([1] : Bytes) ≠ [] ∧
      (svcs_compress [1] = .ok (zlibCompress [1]) ∧
       svcs_decompress (zlibCompress [1]) = .ok [1] ∧
       (∀ y : Bytes, y ≠ [] → zlibPayload? y = none → svcs_decompress y = .error .genErr) ∧
       svcs_compress [] = .error .invalid ∧
       svcs_decompress [] = .error .invalid) :=
  ⟨by decide, C5_codec_roundtrip [1] (by decide)⟩

/-- C5 — counterexample.  The claim says `svcs_compress x` succeeds for every
finite `x` including the empty sequence; the code rejects a zero-length input
with `SVCS_ERROR_INVALID` before ever calling zlib. -/
theorem C5_counterexample : svcs_compress [] = .error .invalid := rfl

/-! ### Filesystem model (`src/core/utils.c`)

Paths are strings relative to the repository's `.svcs` directory (the
`repo->git_dir` prefix of every `snprintf`-built path is dropped; working
tree paths live in the same map).  A file carries its content bytes and an
mtime.  `svcs_mkdir_recursive` has no observable effect in this model. -/

/-- The bytes of an ASCII string. -/
def strBytes (s : String) : Bytes := s.toList.map Char.toNat

/-- Content and stat data of one file. -/
structure FileInfo where
  bytes : Bytes
  mtime : Int
  deriving DecidableEq, Repr

/-- The filesystem: an association list from path to file. -/
abbrev FS := List (String × FileInfo)

def fsLookup (fs : FS) (p : String) : Option FileInfo :=
  match fs with
  | [] => none
  | e :: rest => if e.1 = p then some e.2 else fsLookup rest p

/-- `svcs_file_exists` (a `stat` probe). -/
def svcs_file_exists (fs : FS) (p : String) : Bool := (fsLookup fs p).isSome

/-- `svcs_file_mtime`: the file's mtime, or 0 when it does not exist. -/
def svcs_file_mtime (fs : FS) (p : String) : Int :=
  match fsLookup fs p with
  | some fi => fi.mtime
  | none => 0

/-- `svcs_file_read`: whole-file read; missing file surfaces as `SVCS_ERROR_IO`
(`fopen` fails). -/
def svcs_file_read (fs : FS) (p : String) : Except SvcsError Bytes :=
  match fsLookup fs p with
  | some fi => .ok fi.bytes
  | none => .error .ioError

/-- `svcs_file_write`: whole-file overwrite-or-create, stamping mtime `mt`. -/
def svcs_file_write (fs : FS) (p : String) (d : Bytes) (mt : Int) : FS :=
  if (fsLookup fs p).isSome then
    fs.map (fun e => if e.1 = p then (p, ⟨d, mt⟩) else e)
  else fs ++ [(p, ⟨d, mt⟩)]

/-! ### The object store (`src/core/object.c`) -/

/-- `svcs_object_type_t`. -/
inductive ObjType
  | blob
  | tree
  | commit
  | tag
  deriving DecidableEq, Repr

/-- The literal lowercase type word used in object headers. -/
def typeName : ObjType → String
  | .blob => "blob"
  | .tree => "tree"
  | .commit => "commit"
  | .tag => "tag"

/-- `svcs_object_t` (type, payload size, hash).  The C struct carries no
payload pointer, only these three fields. -/
structure SvcsObject where
  type : ObjType
  size : Nat
  hash : Bytes
  deriving DecidableEq, Repr

/-- `get_object_path`: `objects/<first two hex chars>/<remaining 62>`
(relative to the git dir). -/
def objectPath (hash : Bytes) : String :=
  let hex := svcs_hash_to_string hash
  "objects/" ++ ⟨hex.toList.take 2⟩ ++ "/" ++ ⟨hex.toList.drop 2⟩

/-- The header `"<type> <size>"` written by `snprintf` in `svcs_object_write`
(without the trailing NUL, which is written separately). -/
def objectHeaderBytes (t : ObjType) (size : Nat) : Bytes :=
  strBytes (typeName t ++ " " ++ toString size)

/-- `svcs_object_write` from `src/core/object.c`, translated as-is: create
the fan-out directory, succeed as a no-op if the file exists, otherwise
write the header bytes and a NUL byte — the code writes the header
UNCOMPRESSED and never writes the payload (its own comments acknowledge
both omissions). -/
def svcs_object_write (fs : FS) (obj : SvcsObject) : Except SvcsError FS :=
  if svcs_file_exists fs (objectPath obj.hash) then .ok fs
  else .ok (svcs_file_write fs (objectPath obj.hash)
    (objectHeaderBytes obj.type obj.size ++ [0]) 0)

/-- First-occurrence split: `splitAtByte b bs = some (pre, post)` when `bs =
pre ++ [b] ++ post` with `b ∉ pre` (`memchr` / `strchr`). -/
def splitAtByte (b : Nat) : Bytes → Option (Bytes × Bytes)
  | [] => none
  | x :: rest =>
    if x = b then some ([], rest)
    else
      match splitAtByte b rest with
      | some (pre, post) => some (x :: pre, post)
      | none => none

/-- Maximal decimal-digit run, accumulating the value (`strtoul` body). -/
def decRunVal (acc : Nat) : Bytes → Nat
  | [] => acc
  | b :: rest => if 48 ≤ b ∧ b ≤ 57 then decRunVal (acc * 10 + (b - 48)) rest else acc

/-- Model of `strtoul(s, NULL, 10)` on the byte span `bs`: skip whitespace,
optional `+`, then the maximal digit run (object headers never carry a
minus sign). -/
def strtoulDec (bs : Bytes) : Nat :=
  match bs.dropWhile (fun b => b = 32 || b = 9 || b = 10 || b = 11 || b = 12 || b = 13) with
  | 43 :: rest => decRunVal 0 rest
  | s => decRunVal 0 s

/-- `svcs_object_read` from `src/core/object.c`: NotFound if the file is
absent; read; decompress; find the NUL ending the header (`memchr`); split
the header at the space (`strchr`); parse the decimal size; match the type
word; check that the remaining content length equals the parsed size.  The
payload is freed, not returned — the C struct has no payload field. -/
def svcs_object_read (fs : FS) (hash : Bytes) : Except SvcsError SvcsObject :=
  let path := objectPath hash
  if ¬ svcs_file_exists fs path then .error .notFound
  else
    match svcs_file_read fs path with
    | .error e => .error e
    | .ok compressed =>
      match svcs_decompress compressed with
      | .error e => .error e
      | .ok data =>
        match splitAtByte 0 data with
        | none => .error .corrupt
        | some (header, content) =>
          match splitAtByte 32 header with
          | none => .error .corrupt
          | some (typeBytes, sizeBytes) =>
            let objectSize := strtoulDec sizeBytes
            let ty? : Option ObjType :=
              if typeBytes = strBytes "blob" then some .blob
              else if typeBytes = strBytes "tree" then some .tree
              else if typeBytes = strBytes "commit" then some .commit
              else if typeBytes = strBytes "tag" then some .tag
              else none
            match ty? with
            | none => .error .corrupt
            | some ty =>
              if content.length ≠ objectSize then .error .corrupt
              else .ok { type := ty, size := objectSize, hash := hash }

/-- `svcs_hash_object` from `src/core/hash.c`: digest of
`"<type> <size>\0" || payload`, with the digest `H` (OpenSSL SHA3-256)
uninterpreted. -/
def svcs_hash_object (H : Bytes → Bytes) (t : ObjType) (data : Bytes) : Bytes :=
  H (objectHeaderBytes t data.length ++ [0] ++ data)

/-- C1 — the object store violates the claim; the code is the slip (its own
comments say "In a real implementation, you'd compress with zlib" and
"you'd write the actual object content here").  At the concrete blob object
of size 1: the first write succeeds and stores only the uncompressed header
`"blob 1\0"` with no payload; the second write is indeed a no-op; but
`svcs_object_read` decompresses the stored bytes, which are not a
compressed stream, and fails with the generic error instead of returning
the object. -/
theorem C1_object_store_bug :
    svcs_object_write [] ⟨.blob, 1, List.replicate 32 171⟩ =
      .ok [(objectPath (List.replicate 32 171), ⟨strBytes "blob 1" ++ [0], 0⟩)] ∧
    svcs_object_write
        [(objectPath (List.replicate 32 171), ⟨strBytes "blob 1" ++ [0], 0⟩)]
        ⟨.blob, 1, List.replicate 32 171⟩ =
      .ok [(objectPath (List.replicate 32 171), ⟨strBytes "blob 1" ++ [0], 0⟩)] ∧
    svcs_object_read
        [(objectPath (List.replicate 32 171), ⟨strBytes "blob 1" ++ [0], 0⟩)]
        (List.replicate 32 171) = .error .genErr :=
  ⟨rfl, rfl, rfl⟩

/-! ### Hashing state (`src/core/hash.c`) -/

/-- `svcs_hash_update` from `src/core/hash.c`: despite its name it is NOT
incremental — each call creates a fresh digest context, digests only its own
chunk, finalizes, and overwrites `hash->bytes`.  A zero-length (or nil)
chunk leaves the state untouched. -/
def svcs_hash_update (H : Bytes → Bytes) (hash : Bytes) (data : Bytes) : Bytes :=
  if data = [] then hash else H data

/-- `svcs_hash_file` from `src/core/hash.c`: digest of
`"blob <size>\0" || contents`. -/
def svcs_hash_file (H : Bytes → Bytes) (fs : FS) (p : String) : Except SvcsError Bytes :=
  match svcs_file_read fs p with
  | .error e => .error e
  | .ok d => .ok (svcs_hash_object H .blob d)

/-- C9 — confirmed.  `svcs_hash_update` is not incremental: updating with `a`
and then with `b` leaves the state equal to the digest of `b` alone (each
call digests only its own chunk, overwriting the previous result), and in
particular differs from the digest of the concatenation `a ++ b` whenever
those digests differ. -/
theorem C9_hash_update_not_incremental (H : Bytes → Bytes) (h a b : Bytes)
    (_ha : a ≠ []) (hb : b ≠ []) :
    svcs_hash_update H (svcs_hash_update H h a) b = H b ∧
    (H b ≠ H (a ++ b) → svcs_hash_update H (svcs_hash_update H h a) b ≠ H (a ++ b)) := by
  have h1 : svcs_hash_update H (svcs_hash_update H h a) b = H b := by
    simp [svcs_hash_update, hb]
  exact ⟨h1, fun hne => h1 ▸ hne⟩

/-- Witness for C9 with the identity digest and concrete one-byte chunks. -/
theorem C9_hash_update_witness :
    ([1] : Bytes) ≠ [] ∧ ([2] : Bytes) ≠ [] ∧
      (svcs_hash_update (fun d => d) (svcs_hash_update (fun d => d) [0] [1]) [2] =
          (fun d : Bytes => d) [2] ∧
       ((fun d : Bytes => d) [2] ≠ (fun d : Bytes => d) ([1] ++ [2]) →
          svcs_hash_update (fun d => d) (svcs_hash_update (fun d => d) [0] [1]) [2] ≠
            (fun d : Bytes => d) ([1] ++ [2]))) :=
  ⟨by decide, by decide,
    C9_hash_update_not_incremental (fun d => d) [0] [1] [2] (by decide) (by decide)⟩

/-! ### The staging index (`src/core/index.c`) -/

/-- `svcs_file_status_t`. -/
inductive FileStatus
  | untracked
  | added
  | modified
  | deleted
  | renamed
  | copied
  deriving DecidableEq, Repr

/-- `svcs_index_entry_t`. -/
structure IndexEntry where
  path : String
  hash : Bytes
  mode : Nat
  mtime : Int
  size : Nat
  status : FileStatus
  deriving DecidableEq, Repr

/-- The per-entry body of the loop in `svcs_index_status`: copy the entry,
then mutate the copy's status — Deleted when the file is gone; Modified when
the mtime differs AND the recomputed blob hash differs; otherwise leave the
stored status.  (`svcs_hash_file` cannot fail here because the file was just
seen to exist.) -/
def statusEntry (H : Bytes → Bytes) (fs : FS) (e : IndexEntry) : IndexEntry :=
  if ¬ svcs_file_exists fs e.path then { e with status := .deleted }
  else
    let currentMtime := svcs_file_mtime fs e.path
    if currentMtime ≠ e.mtime then
      match svcs_hash_file H fs e.path with
      | .ok chash => if chash ≠ e.hash then { e with status := .modified } else e
      | .error _ => e
    else e

/-- `svcs_index_status` from `src/core/index.c`, in state-passing form: the
first component is the repository's stored index after the call (the code
never writes through `repo->index`, it fills a freshly `malloc`ed copy), the
second is the returned entry array. -/
def svcs_index_status (H : Bytes → Bytes) (fs : FS) (idx : List IndexEntry) :
    List IndexEntry × List IndexEntry :=
  (idx, idx.map (statusEntry H fs))

/-- The spec's wording for one status entry (§4.4 `status`): Deleted if the
file no longer exists; Modified if mtime differs AND recomputed blob hash
differs; unchanged otherwise. -/
def statusSpec (H : Bytes → Bytes) (fs : FS) (e : IndexEntry) : IndexEntry :=
  match fsLookup fs e.path with
  | none => { e with status := .deleted }
  | some fi =>
    if fi.mtime ≠ e.mtime ∧ svcs_hash_object H .blob fi.bytes ≠ e.hash then
      { e with status := .modified }
    else e

lemma statusEntry_eq_spec (H : Bytes → Bytes) (fs : FS) (e : IndexEntry) :
    statusEntry H fs e = statusSpec H fs e := by
  unfold statusEntry statusSpec svcs_file_exists svcs_file_mtime svcs_hash_file svcs_file_read
  cases hfnd : fsLookup fs e.path with
  | none => simp [hfnd]
  | some fi =>
    by_cases hm : fi.mtime = e.mtime
    · simp [hfnd, hm]
    · by_cases hh : svcs_hash_object H .blob fi.bytes = e.hash <;> simp [hfnd, hm, hh]

/-- C8 — confirmed.  `svcs_index_status` returns a copy of every index entry
with the status recomputed exactly as the claim describes (Deleted when the
file is gone, Modified when the mtime differs AND the recomputed blob hash
differs, the stored status otherwise), and the repository's stored index is
not modified. -/
theorem C8_index_status (H : Bytes → Bytes) (fs : FS) (idx : List IndexEntry) :
    (svcs_index_status H fs idx).1 = idx ∧
    (svcs_index_status H fs idx).2 = idx.map (statusSpec H fs) := by
  refine ⟨rfl, ?_⟩
  have hfun : statusEntry H fs = statusSpec H fs := funext (statusEntry_eq_spec H fs)
  simp only [svcs_index_status, hfun]

/-! ### Tree synthesis from the index (`src/core/commit.c`) -/

/-- The bytes emitted for one index entry: octal mode (`%o`), space, path,
NUL byte, then the 32 raw hash bytes. -/
def treeEntryBytes (e : IndexEntry) : Bytes :=
  strBytes (⟨Nat.toDigits 8 e.mode⟩ ++ " " ++ e.path) ++ [0] ++ e.hash

/-- `create_tree_from_index` from `src/core/commit.c`: zero hash for an
empty index; otherwise concatenate the per-entry records in the order the
entries are stored in the index (the loop runs `i = 0 .. entry_count-1`;
there is no sort), hash as a tree object and write the tree object. -/
def create_tree_from_index (H : Bytes → Bytes) (fs : FS) (entries : List IndexEntry) :
    Except SvcsError (FS × Bytes) :=
  if entries.length = 0 then .ok (fs, zeroHash)
  else
    match svcs_object_write fs
        { type := .tree,
          size := (entries.foldl (fun acc e => acc ++ treeEntryBytes e) []).length,
          hash := svcs_hash_object H .tree (entries.foldl (fun acc e => acc ++ treeEntryBytes e) []) } with
    | .ok fs' => .ok (fs', svcs_hash_object H .tree (entries.foldl (fun acc e => acc ++ treeEntryBytes e) []))
    | .error e => .error e

/-- Byte-lexicographic comparison (the order `strcmp` induces on paths). -/
def bytesLe : Bytes → Bytes → Bool
  | [], _ => true
  | _ :: _, [] => false
  | x :: xs, y :: ys => if x < y then true else if y < x then false else bytesLe xs ys

/-- Insertion into a path-sorted entry list (byte-lexicographic `≤`). -/
def insertByPath (e : IndexEntry) : List IndexEntry → List IndexEntry
  | [] => [e]
  | x :: rest =>
    if bytesLe (strBytes e.path) (strBytes x.path) then e :: x :: rest
    else x :: insertByPath e rest

/-- Sort entries by path bytes (insertion sort). -/
def sortByPath (l : List IndexEntry) : List IndexEntry := l.foldr insertByPath []

/-- The tree bytes the claim describes ("the index entries taken in sorted
order by path bytes"), for comparison with the code's emission order. -/
def treeDataSorted (entries : List IndexEntry) : Bytes :=
  (sortByPath entries).foldl (fun acc e => acc ++ treeEntryBytes e) []

lemma foldl_append_treeEntry (l : List IndexEntry) (acc : Bytes) :
    l.foldl (fun a e => a ++ treeEntryBytes e) acc = acc ++ (l.map treeEntryBytes).flatten := by
  induction l generalizing acc with
  | nil => simp
  | cons x rest ih => simp [ih, List.append_assoc]

lemma fsLookup_map_update (fs : FS) (p q : String) (v : FileInfo) (hne : q ≠ p) :
    fsLookup (fs.map (fun e => if e.1 = p then (p, v) else e)) q = fsLookup fs q := by
  induction fs with
  | nil => rfl
  | cons e rest ih =>
    by_cases hep : e.1 = p
    · have hpq : ¬(p = q) := fun hcon => hne hcon.symm
      have heq : ¬(e.1 = q) := fun hcon => hne (hep ▸ hcon).symm
      simp [fsLookup, hep, hpq, heq, ih]
    · by_cases hq : e.1 = q <;> simp [fsLookup, hep, hq, hne, ih]

lemma fsLookup_append_single (fs : FS) (p q : String) (v : FileInfo) (hne : q ≠ p) :
    fsLookup (fs ++ [(p, v)]) q = fsLookup fs q := by
  induction fs with
  | nil => simp [fsLookup, show ¬(p = q) from fun hcon => hne hcon.symm]
  | cons e rest ih =>
    by_cases hq : e.1 = q <;> simp [fsLookup, hq, ih]

lemma fsLookup_write_ne (fs : FS) (p q : String) (d : Bytes) (mt : Int) (hne : q ≠ p) :
    fsLookup (svcs_file_write fs p d mt) q = fsLookup fs q := by
  unfold svcs_file_write
  split
  · exact fsLookup_map_update fs p q _ hne
  · exact fsLookup_append_single fs p q _ hne

lemma head_ne_objectPath (h : Bytes) : ("HEAD" : String) ≠ objectPath h := by
  intro hcon
  have h2 : ("HEAD" : String).data.head? = some 'H' := rfl
  have h1 : (objectPath h).data.head? = some 'o' := rfl
  rw [hcon, h1] at h2
  simp at h2

lemma svcs_object_write_ok_head (fs : FS) (obj : SvcsObject) :
    ∃ fs', svcs_object_write fs obj = .ok fs' ∧ fsLookup fs' "HEAD" = fsLookup fs "HEAD" := by
  unfold svcs_object_write
  split
  · exact ⟨fs, rfl, rfl⟩
  · exact ⟨_, rfl, fsLookup_write_ne fs _ "HEAD" _ _ (head_ne_objectPath obj.hash)⟩

lemma create_tree_ok_head (H : Bytes → Bytes) (fs : FS) (entries : List IndexEntry) :
    ∃ fs1 th, create_tree_from_index H fs entries = .ok (fs1, th) ∧
      fsLookup fs1 "HEAD" = fsLookup fs "HEAD" := by
  unfold create_tree_from_index
  split
  · exact ⟨fs, zeroHash, rfl, rfl⟩
  · obtain ⟨fs', hw, hh⟩ := svcs_object_write_ok_head fs
      { type := .tree,
        size := (entries.foldl (fun a e => a ++ treeEntryBytes e) []).length,
        hash := svcs_hash_object H .tree (entries.foldl (fun a e => a ++ treeEntryBytes e) []) }
    exact ⟨fs', _, by rw [hw], hh⟩

/-- C3 — amended.  Tree synthesis from the index returns the zero hash when
the index has no entries; otherwise it emits, for the index entries taken in
the order they are stored in the index (NOT sorted by path bytes — see
`C3_counterexample`), the octal mode, a space, the path, a zero byte and the
32 raw hash bytes, and hashes the concatenation as a tree object, writing
the tree to the object store. -/
theorem C3_tree_from_index (H : Bytes → Bytes) (fs : FS) (entries : List IndexEntry)
    (hne : entries ≠ []) :
    create_tree_from_index H fs [] = .ok (fs, zeroHash) ∧
    ∃ fs', create_tree_from_index H fs entries =
      .ok (fs', svcs_hash_object H .tree ((entries.map treeEntryBytes).flatten)) := by
  constructor
  · rfl
  · have hlen : ¬(entries.length = 0) := fun hcon => hne (List.length_eq_zero.mp hcon)
    have hdata : entries.foldl (fun a e => a ++ treeEntryBytes e) [] =
        (entries.map treeEntryBytes).flatten := by
      simpa using foldl_append_treeEntry entries []
    obtain ⟨fs', hw, _⟩ := svcs_object_write_ok_head fs
      { type := .tree,
        size := (entries.foldl (fun a e => a ++ treeEntryBytes e) []).length,
        hash := svcs_hash_object H .tree (entries.foldl (fun a e => a ++ treeEntryBytes e) []) }
    refine ⟨fs', ?_⟩
    rw [create_tree_from_index, if_neg hlen, hw, hdata]

/-- Concrete entries used to exhibit the missing sort (paths "b" before "a"
in index order). -/
def ceEntryB : IndexEntry :=
  { path := "b", hash := List.replicate 32 1, mode := 420, mtime := 0, size := 0,
    status := .added }

def ceEntryA : IndexEntry :=
  { path := "a", hash := List.replicate 32 2, mode := 420, mtime := 0, size := 0,
    status := .added }

/-- Witness for C3 at a one-entry index. -/
theorem C3_tree_from_index_witness :
    ([ceEntryA] : List IndexEntry) ≠ [] ∧
      (create_tree_from_index (fun d => d) [] [] = .ok ([], zeroHash) ∧
       ∃ fs', create_tree_from_index (fun d => d) [] [ceEntryA] =
         .ok (fs', svcs_hash_object (fun d => d) .tree
           (([ceEntryA].map treeEntryBytes).flatten))) :=
  ⟨by decide, C3_tree_from_index (fun d => d) [] [ceEntryA] (by decide)⟩

/-- C3 — counterexample.  With the index holding paths `"b", "a"` in that
stored order and the identity digest, `create_tree_from_index` hashes the
entries in index order, which differs from the hash of the path-sorted
emission the claim describes. -/
theorem C3_counterexample :
    ((create_tree_from_index (fun d => d) [] [ceEntryB, ceEntryA]).toOption.map (·.2)) =
      some (svcs_hash_object (fun d => d) .tree
        (([ceEntryB, ceEntryA].map treeEntryBytes).flatten)) ∧
    svcs_hash_object (fun d => d) .tree (([ceEntryB, ceEntryA].map treeEntryBytes).flatten) ≠
      svcs_hash_object (fun d => d) .tree (treeDataSorted [ceEntryB, ceEntryA]) := by
  exact ⟨rfl, by decide⟩

/-! ### Commit creation (`src/core/commit.c`) -/

/-- The characters of a byte buffer up to (excluding) the first newline —
the effect of `strchr(s, '\n')` followed by `*newline = '\0'`. -/
def bytesToStrUntilNL (bs : Bytes) : String :=
  ⟨(bs.takeWhile (fun b => b ≠ 10)).map Char.ofNat⟩

/-- Parent resolution in `svcs_commit_create` (commit.c:74-105): the parent
starts as the zero hash; ONLY when HEAD begins with `"ref: "` is the
referenced branch file read and parsed (a parse failure is ignored, leaving
the zero hash).  A detached HEAD — a direct hash — falls through and the
zero hash is used. -/
def resolveParentFromHEAD (fs : FS) : Bytes :=
  match svcs_file_read fs "HEAD" with
  | .error _ => zeroHash
  | .ok headData =>
    if headData.take 5 = strBytes "ref: " then
      match svcs_file_read fs (bytesToStrUntilNL (headData.drop 5)) with
      | .error _ => zeroHash
      | .ok refData =>
        match svcs_hash_from_string (bytesToStrUntilNL refData) with
        | .ok h => h
        | .error _ => zeroHash
    else zeroHash

/-- The commit payload built by `snprintf` (commit.c:130-147): the
`parent` line is present exactly when the parent hash is non-zero.
`strftime("%s +0000", gmtime(now))` renders the epoch seconds. -/
def commitContent (treeHash parentHash : Bytes) (message author : String) (now : Int) :
    String :=
  if parentHash = zeroHash then
    "tree " ++ svcs_hash_to_string treeHash ++ "\n" ++
    "author " ++ author ++ " " ++ toString now ++ " +0000" ++ "\n" ++
    "committer " ++ author ++ " " ++ toString now ++ " +0000" ++ "\n" ++
    "\n" ++ message ++ "\n"
  else
    "tree " ++ svcs_hash_to_string treeHash ++ "\n" ++
    "parent " ++ svcs_hash_to_string parentHash ++ "\n" ++
    "author " ++ author ++ " " ++ toString now ++ " +0000" ++ "\n" ++
    "committer " ++ author ++ " " ++ toString now ++ " +0000" ++ "\n" ++
    "\n" ++ message ++ "\n"

/-- The HEAD/branch update at the end of `svcs_commit_create`
(commit.c:171-197): re-read HEAD; if (and only if) it is symbolic, write the
new commit's hex hash plus newline to the branch file.  The write's return
value is ignored, and a detached HEAD is never rewritten. -/
def updateHeadAfterCommit (fs : FS) (commitHash : Bytes) (now : Int) : FS :=
  match svcs_file_read fs "HEAD" with
  | .error _ => fs
  | .ok headData =>
    if headData.take 5 = strBytes "ref: " then
      svcs_file_write fs (bytesToStrUntilNL (headData.drop 5))
        (strBytes (svcs_hash_to_string commitHash ++ "\n")) now
    else fs

/-- Result record of `svcs_commit_create`; `content` and `parentHash` are
internal values of the C function, exposed here for specification. -/
structure CommitCreateResult where
  fs : FS
  commitHash : Bytes
  content : String
  parentHash : Bytes
  deriving DecidableEq, Repr

/-- `svcs_commit_create` from `src/core/commit.c`: build the tree from the
index, resolve the parent from HEAD, build the commit payload, hash and
write the commit object, then update the current ref (symbolic HEAD only). -/
def svcs_commit_create (H : Bytes → Bytes) (now : Int) (fs0 : FS)
    (index : List IndexEntry) (message author : String) :
    Except SvcsError CommitCreateResult :=
  match create_tree_from_index H fs0 index with
  | .error e => .error e
  | .ok (fs1, treeHash) =>
    match svcs_object_write fs1
        { type := .commit,
          size := (strBytes (commitContent treeHash (resolveParentFromHEAD fs1)
            message author now)).length,
          hash := svcs_hash_object H .commit (strBytes (commitContent treeHash
            (resolveParentFromHEAD fs1) message author now)) } with
    | .error e => .error e
    | .ok fs2 =>
      .ok { fs := updateHeadAfterCommit fs2
              (svcs_hash_object H .commit (strBytes (commitContent treeHash
                (resolveParentFromHEAD fs1) message author now))) now,
            commitHash := svcs_hash_object H .commit (strBytes (commitContent treeHash
              (resolveParentFromHEAD fs1) message author now)),
            content := commitContent treeHash (resolveParentFromHEAD fs1) message author now,
            parentHash := resolveParentFromHEAD fs1 }

/-- C2 — amended.  For every repository whose HEAD file does NOT start with
`"ref: "` (i.e. contains a direct, detached commit hash), `svcs_commit_create`
does not use that hash: the new commit's parent is the zero hash (the commit
is written as a root commit), and HEAD is left unchanged — it is not
rewritten to the new commit's hash.  (The original claim said the detached
hash becomes the parent and HEAD is rewritten; see `C2_counterexample`.) -/
theorem C2_commit_create_detached (H : Bytes → Bytes) (now : Int) (fs : FS)
    (index : List IndexEntry) (message author : String) (fi : FileInfo)
    (hhead : fsLookup fs "HEAD" = some fi)
    (hdet : fi.bytes.take 5 ≠ strBytes "ref: ") :
    ∃ res, svcs_commit_create H now fs index message author = .ok res ∧
      res.parentHash = zeroHash ∧
      fsLookup res.fs "HEAD" = some fi := by
  obtain ⟨fs1, th, htree, hh1⟩ := create_tree_ok_head H fs index
  have hhead1 : fsLookup fs1 "HEAD" = some fi := by rw [hh1]; exact hhead
  have hread1 : svcs_file_read fs1 "HEAD" = .ok fi.bytes := by
    simp [svcs_file_read, hhead1]
  have hpar : resolveParentFromHEAD fs1 = zeroHash := by
    rw [resolveParentFromHEAD, hread1]
    simp [hdet]
  obtain ⟨fs2, hw2, hh2⟩ := svcs_object_write_ok_head fs1
    { type := .commit,
      size := (strBytes (commitContent th zeroHash message author now)).length,
      hash := svcs_hash_object H .commit
        (strBytes (commitContent th zeroHash message author now)) }
  have hhead2 : fsLookup fs2 "HEAD" = some fi := by rw [hh2]; exact hhead1
  have hread2 : svcs_file_read fs2 "HEAD" = .ok fi.bytes := by
    simp [svcs_file_read, hhead2]
  have hupd : updateHeadAfterCommit fs2
      (svcs_hash_object H .commit (strBytes (commitContent th zeroHash message author now)))
      now = fs2 := by
    rw [updateHeadAfterCommit, hread2]
    simp [hdet]
  refine ⟨{ fs := fs2,
            commitHash := svcs_hash_object H .commit
              (strBytes (commitContent th zeroHash message author now)),
            content := commitContent th zeroHash message author now,
            parentHash := zeroHash }, ?_, rfl, hhead2⟩
  simp only [svcs_commit_create, htree, hpar, hw2, hupd]

/-- The detached commit hash stored in HEAD for the C2 counterexample. -/
def ceDetHash : Bytes := 1 :: List.replicate 31 0

/-- HEAD file content for the C2 counterexample: a direct hex hash plus newline. -/
def ceHeadFi : FileInfo := ⟨strBytes (svcs_hash_to_string ceDetHash ++ "\n"), 0⟩

/-- A repository (git-dir relative) whose HEAD is detached at `ceDetHash`. -/
def ceRepo : FS := [("HEAD", ceHeadFi)]

/-- The concrete run used in the C2 counterexample: empty index, constant
digest, detached HEAD. -/
def ceRun : Except SvcsError CommitCreateResult :=
  svcs_commit_create (fun _ => zeroHash) 0 ceRepo [] "m" "a"

/-- C2 — counterexample.  With HEAD detached at `ceDetHash`, the commit is
created with the ZERO hash as parent (not the detached hash), and afterwards
HEAD still holds its original content, which is not the new commit's hash. -/
theorem C2_counterexample :
    (ceRun.toOption.map (·.parentHash) = some zeroHash) ∧
    zeroHash ≠ ceDetHash ∧
    (ceRun.toOption.map (fun res => fsLookup res.fs "HEAD") = some (some ceHeadFi)) ∧
    (ceRun.toOption.map (·.commitHash) = some zeroHash) ∧
    ceHeadFi.bytes ≠ strBytes (svcs_hash_to_string zeroHash ++ "\n") :=
  ⟨rfl, by decide, rfl, rfl, by decide⟩

/-- Witness for C2 at the concrete detached repository. -/
theorem C2_commit_create_detached_witness :
    fsLookup ceRepo "HEAD" = some ceHeadFi ∧
    ceHeadFi.bytes.take 5 ≠ strBytes "ref: " ∧
    (∃ res, svcs_commit_create (fun _ => zeroHash) 5 ceRepo [] "msg" "auth" = .ok res ∧
      res.parentHash = zeroHash ∧ fsLookup res.fs "HEAD" = some ceHeadFi) :=
  ⟨rfl, by decide,
    C2_commit_create_detached (fun _ => zeroHash) 5 ceRepo [] "msg" "auth" ceHeadFi rfl
      (by decide)⟩

/-! ### Commit read-back (`src/core/commit.c`) -/

/-- `svcs_commit_t`, restricted to the fields `svcs_commit_read` fills;
`calloc` zeroes the record, so the tree and parent hashes stay zero. -/
structure SvcsCommit where
  treeHash : Bytes
  parentHash : Bytes
  author : String
  committer : String
  timestamp : Int
  message : String
  deriving DecidableEq, Repr

/-- `svcs_commit_read` from `src/core/commit.c`: read the object, require
type commit, then — the parser is a stub — fill in the FIXED strings
`"Commit message"` / `"Author"` / `"Committer"` and `time(NULL)` (the
current wall clock, passed here as `now`), ignoring the stored payload. -/
def svcs_commit_read (now : Int) (fs : FS) (hash : Bytes) : Except SvcsError SvcsCommit :=
  match svcs_object_read fs hash with
  | .error e => .error e
  | .ok obj =>
    if obj.type ≠ .commit then .error .invalid
    else .ok { treeHash := zeroHash, parentHash := zeroHash, author := "Author",
               committer := "Committer", timestamp := now, message := "Commit message" }

/-- C10 — confirmed.  For every hash whose stored object reads back with type
commit, `svcs_commit_read` returns the fixed message `"Commit message"`,
author `"Author"`, committer `"Committer"` and the current wall-clock time
as timestamp, independent of the payload `svcs_commit_create` wrote. -/
theorem C10_commit_read_stub (now : Int) (fs : FS) (hash : Bytes) (obj : SvcsObject)
    (hread : svcs_object_read fs hash = .ok obj) (hty : obj.type = .commit) :
    svcs_commit_read now fs hash =
      .ok { treeHash := zeroHash, parentHash := zeroHash, author := "Author",
            committer := "Committer", timestamp := now, message := "Commit message" } := by
  rw [svcs_commit_read, hread]
  simp [hty]

/-- A store holding one well-formed, decompressible commit object (empty
payload) at the zero hash, for the C10 witness. -/
def c10Repo : FS :=
  [(objectPath zeroHash, ⟨zlibCompress (strBytes "commit 0" ++ [0]), 0⟩)]

/-- Witness for C10 at the concrete commit object of `c10Repo`. -/
theorem C10_commit_read_stub_witness :
    svcs_object_read c10Repo zeroHash = .ok ⟨.commit, 0, zeroHash⟩ ∧
    (SvcsObject.mk .commit 0 zeroHash).type = .commit ∧
    svcs_commit_read 7 c10Repo zeroHash =
      .ok { treeHash := zeroHash, parentHash := zeroHash, author := "Author",
            committer := "Committer", timestamp := 7, message := "Commit message" } :=
  ⟨rfl, rfl, C10_commit_read_stub 7 c10Repo zeroHash ⟨.commit, 0, zeroHash⟩ rfl rfl⟩

/-! ### Three-way merge (`src/core/merge_engine.cpp`) -/

/-- `ConflictType` from `merge_engine.hpp`. -/
inductive ConflictType
  | content
  | addAdd
  | modifyDelete
  | deleteModify
  | renameRename
  | modeChange
  deriving DecidableEq, Repr

/-- `MergeConflict`, restricted to the fields `three_way_merge_lines` sets. -/
structure MergeConflict where
  type : ConflictType
  filePath : String
  ourLineStart : Nat
  theirLineStart : Nat
  ourLineEnd : Int
  theirLineEnd : Int
  ourContent : String
  theirContent : String
  deriving DecidableEq, Repr

/-- `MergeEngine::join_lines`: lines joined by a newline *between* them
(no trailing newline; the empty list joins to the empty string). -/
def joinLines : List String → String
  | [] => ""
  | [l] => l
  | l :: rest => l ++ "\n" ++ joinLines rest

/-- The conflict record pushed by the conflict branch of
`three_way_merge_lines` (`conflict_size` is the constant 1). -/
def mkContentConflict (oIdx tIdx : Nat) (ourC theirC : List String) : MergeConflict :=
  { type := .content, filePath := "",
    ourLineStart := oIdx, theirLineStart := tIdx,
    ourLineEnd := (oIdx : Int) + ourC.length - 1,
    theirLineEnd := (tIdx : Int) + theirC.length - 1,
    ourContent := joinLines ourC, theirContent := joinLines theirC }

/-- The cursor loop of `MergeEngine::three_way_merge_lines`
(merge_engine.cpp:156-218), on the unconsumed suffixes of base/ours/theirs
with the absolute cursors `oIdx`/`tIdx` carried for the conflict records.
Each of the three accept-cases requires all three cursors in bounds and
advances all three; the conflict branch takes (up to) one line from each
side, emits the marker block, and also advances all three cursors by 1. -/
def mergeLoop (oIdx tIdx : Nat) :
    List String → List String → List String → List String × List MergeConflict
  | [], [], [] => ([], [])
  | b :: bs', o :: os', t :: ts' =>
    if b = o ∧ o = t then
      let r := mergeLoop (oIdx + 1) (tIdx + 1) bs' os' ts'
      (o :: r.1, r.2)
    else if b = o then
      let r := mergeLoop (oIdx + 1) (tIdx + 1) bs' os' ts'
      (t :: r.1, r.2)
    else if b = t then
      let r := mergeLoop (oIdx + 1) (tIdx + 1) bs' os' ts'
      (o :: r.1, r.2)
    else
      let r := mergeLoop (oIdx + 1) (tIdx + 1) bs' os' ts'
      ("<<<<<<< HEAD" :: o :: "=======" :: t :: ">>>>>>> branch" :: r.1,
       mkContentConflict oIdx tIdx [o] [t] :: r.2)
  | [], [], t :: ts' =>
    let r := mergeLoop (oIdx + 1) (tIdx + 1) [] [] ts'
    (("<<<<<<< HEAD" :: ([] : List String)) ++ ("=======" :: [t]) ++
      (">>>>>>> branch" :: r.1),
     mkContentConflict oIdx tIdx [] [t] :: r.2)
  | [], o :: os', ts =>
    let r := mergeLoop (oIdx + 1) (tIdx + 1) [] os' (ts.drop 1)
    (("<<<<<<< HEAD" :: [o]) ++ ("=======" :: ts.take 1) ++
      (">>>>>>> branch" :: r.1),
     mkContentConflict oIdx tIdx [o] (ts.take 1) :: r.2)
  | _b :: bs', [], ts =>
    let r := mergeLoop (oIdx + 1) (tIdx + 1) bs' [] (ts.drop 1)
    (("<<<<<<< HEAD" :: ([] : List String)) ++ ("=======" :: ts.take 1) ++
      (">>>>>>> branch" :: r.1),
     mkContentConflict oIdx tIdx [] (ts.take 1) :: r.2)
  | _b :: bs', o :: os', [] =>
    let r := mergeLoop (oIdx + 1) (tIdx + 1) bs' os' []
    (("<<<<<<< HEAD" :: [o]) ++ ("=======" :: ([] : List String)) ++
      (">>>>>>> branch" :: r.1),
     mkContentConflict oIdx tIdx [o] [] :: r.2)
termination_by bs os ts => bs.length + os.length + ts.length
decreasing_by all_goals simp_arith [List.length_drop]

/-- `ThreeWayMergeResult` (fields set by `three_way_merge_lines`). -/
structure ThreeWayMergeResult where
  mergedLines : List String
  mergedContent : String
  conflicts : List MergeConflict
  hasConflicts : Bool
  success : Bool
  deriving DecidableEq, Repr

/-- `MergeEngine::three_way_merge_lines`: run the cursor loop from 0/0 and
package the result (`has_conflicts` is set exactly when a conflict was
pushed; `success` is always true). -/
def three_way_merge_lines (base ours theirs : List String) : ThreeWayMergeResult :=
  { mergedLines := (mergeLoop 0 0 base ours theirs).1,
    mergedContent := joinLines (mergeLoop 0 0 base ours theirs).1,
    conflicts := (mergeLoop 0 0 base ours theirs).2,
    hasConflicts := !(mergeLoop 0 0 base ours theirs).2.isEmpty,
    success := true }

lemma mergeLoop_diag (b : List String) : ∀ oIdx tIdx, mergeLoop oIdx tIdx b b b = (b, []) := by
  induction b with
  | nil => intro oIdx tIdx; rw [mergeLoop]
  | cons l rest ih =>
    intro oIdx tIdx
    rw [mergeLoop, if_pos ⟨rfl, rfl⟩, ih]

lemma mergeLoop_ours (b x : List String) (hlen : x.length = b.length) :
    ∀ oIdx tIdx, mergeLoop oIdx tIdx b x b = (x, []) := by
  induction b generalizing x with
  | nil =>
    intro oIdx tIdx
    rw [List.length_nil, List.length_eq_zero] at hlen
    subst hlen
    rw [mergeLoop]
  | cons l rest ih =>
    intro oIdx tIdx
    cases x with
    | nil => simp at hlen
    | cons xl xrest =>
      have hlen' : xrest.length = rest.length := by simpa using hlen
      by_cases hxe : l = xl
      · subst hxe
        rw [mergeLoop, if_pos ⟨rfl, rfl⟩, ih xrest hlen']
      · rw [mergeLoop, if_neg (fun hcon => hxe hcon.1),
          if_neg (fun hcon => hxe hcon), if_pos rfl, ih xrest hlen']

lemma mergeLoop_theirs (b y : List String) (hlen : y.length = b.length) :
    ∀ oIdx tIdx, mergeLoop oIdx tIdx b b y = (y, []) := by
  induction b generalizing y with
  | nil =>
    intro oIdx tIdx
    rw [List.length_nil, List.length_eq_zero] at hlen
    subst hlen
    rw [mergeLoop]
  | cons l rest ih =>
    intro oIdx tIdx
    cases y with
    | nil => simp at hlen
    | cons yl yrest =>
      have hlen' : yrest.length = rest.length := by simpa using hlen
      by_cases hye : l = yl
      · subst hye
        rw [mergeLoop, if_pos ⟨rfl, rfl⟩, ih yrest hlen']
      · rw [mergeLoop, if_neg (fun hcon => hye hcon.2), if_pos rfl, ih yrest hlen']

/-- C4 — amended.  The three-way identities hold in the following form:
`three_way_merge_lines b b b` returns `b` with no conflicts for every `b`;
`three_way_merge_lines b x b` returns `x` with no conflicts PROVIDED `x` and
`b` have the same number of lines, and symmetrically for
`three_way_merge_lines b b y`.  When the lengths differ the lockstep cursor
advance of the loop manufactures a conflict (see `C4_counterexample`). -/
theorem C4_three_way_identities (b x y : List String)
    (hx : x.length = b.length) (hy : y.length = b.length) :
    three_way_merge_lines b b b =
      ⟨b, joinLines b, [], false, true⟩ ∧
    three_way_merge_lines b x b =
      ⟨x, joinLines x, [], false, true⟩ ∧
    three_way_merge_lines b b y =
      ⟨y, joinLines y, [], false, true⟩ := by
  refine ⟨?_, ?_, ?_⟩
  · simp [three_way_merge_lines, mergeLoop_diag b 0 0]
  · simp [three_way_merge_lines, mergeLoop_ours b x hx 0 0]
  · simp [three_way_merge_lines, mergeLoop_theirs b y hy 0 0]

/-- Witness for C4 at concrete same-length line lists. -/
theorem C4_three_way_identities_witness :
    (["p", "q"] : List String).length = (["l1", "l2"] : List String).length ∧
    (["r", "s"] : List String).length = (["l1", "l2"] : List String).length ∧
    (three_way_merge_lines ["l1", "l2"] ["l1", "l2"] ["l1", "l2"] =
       ⟨["l1", "l2"], joinLines ["l1", "l2"], [], false, true⟩ ∧
     three_way_merge_lines ["l1", "l2"] ["p", "q"] ["l1", "l2"] =
       ⟨["p", "q"], joinLines ["p", "q"], [], false, true⟩ ∧
     three_way_merge_lines ["l1", "l2"] ["l1", "l2"] ["r", "s"] =
       ⟨["r", "s"], joinLines ["r", "s"], [], false, true⟩) :=
  ⟨rfl, rfl, C4_three_way_identities ["l1", "l2"] ["p", "q"] ["r", "s"] rfl rfl⟩

/-- C4 — counterexample.  `three_way_merge_lines([], ["a"], [])` should, per
the claim (`merge(b, x, b) = (x, no conflicts)` with `b = []`, `x = ["a"]`),
return `["a"]` without conflicts; instead the loop emits a conflict block
because the accept-cases all require the base cursor in bounds. -/
theorem C4_counterexample :
    (three_way_merge_lines [] ["a"] []).hasConflicts = true ∧
    (three_way_merge_lines [] ["a"] []).mergedLines =
      ["<<<<<<< HEAD", "a", "=======", ">>>>>>> branch"] ∧
    (three_way_merge_lines [] ["a"] []).mergedLines ≠ ["a"] ∧
    (three_way_merge_lines [] ["a"] []).conflicts.length = 1 := by
  have hloop : mergeLoop 0 0 [] ["a"] [] =
      (["<<<<<<< HEAD", "a", "=======", ">>>>>>> branch"],
       [mkContentConflict 0 0 ["a"] []]) := by
    rw [mergeLoop]
    norm_num [mergeLoop]
  refine ⟨?_, ?_, ?_, ?_⟩ <;> simp [three_way_merge_lines, hloop]

/-! ### The commit DAG (`src/core/dag.cpp`)

Nodes are keyed by `hash_string()` (the hex of the hash); the
`unordered_map` node table is modelled as a list in insertion order (the
C++ iteration order is unspecified; the ordering property proved below holds
for any order).  `shared_ptr` parent links and `weak_ptr` child back-links
both become key lists. -/

/-- `CommitNode` (dag.hpp): key, metadata, parent and child links. -/
structure CommitNode where
  key : String
  message : String
  author : String
  timestamp : Int
  parents : List String
  children : List String
  deriving DecidableEq, Repr

/-- `CommitDAG`: node table plus the roots and heads bookkeeping lists. -/
structure CommitDAG where
  nodes : List CommitNode
  roots : List String
  heads : List String
  deriving DecidableEq, Repr

def emptyDAG : CommitDAG := ⟨[], [], []⟩

/-- `nodes.find(key)` on the node table. -/
def findNode (ns : List CommitNode) (k : String) : Option CommitNode :=
  match ns with
  | [] => none
  | n :: rest => if n.key = k then some n else findNode rest k

/-- Append `k` to the child list of the node keyed `p` (one iteration of the
parent-linking loop in `add_commit`). -/
def linkChild (ns : List CommitNode) (p k : String) : List CommitNode :=
  ns.map (fun n => if n.key = p then { n with children := n.children ++ [k] } else n)

/-- `CommitDAG::add_commit` (dag.cpp:77-128): idempotent insert; link only to
parents already present (each occurrence of a present parent hash adds one
parent link and one child back-link); maintain `roots` (no parents) and
`heads` (each present parent is erased from heads — first occurrence — and
the new node, having no children, is appended). -/
def add_commit (d : CommitDAG) (hash : Bytes) (message author : String)
    (timestamp : Int) (parentHashes : List Bytes) : CommitDAG :=
  if (findNode d.nodes (svcs_hash_to_string hash)).isSome then d
  else
    { nodes :=
        (((parentHashes.map svcs_hash_to_string).filter
            (fun p => (findNode d.nodes p).isSome)).foldl
          (fun ns p => linkChild ns p (svcs_hash_to_string hash)) d.nodes) ++
        [{ key := svcs_hash_to_string hash, message := message, author := author,
           timestamp := timestamp,
           parents := (parentHashes.map svcs_hash_to_string).filter
             (fun p => (findNode d.nodes p).isSome),
           children := [] }],
      roots :=
        if (parentHashes.map svcs_hash_to_string).filter
            (fun p => (findNode d.nodes p).isSome) = [] then
          d.roots ++ [svcs_hash_to_string hash]
        else d.roots,
      heads :=
        (((parentHashes.map svcs_hash_to_string).filter
            (fun p => (findNode d.nodes p).isSome)).foldl
          (fun hs p => hs.erase p) d.heads) ++ [svcs_hash_to_string hash] }

/-- One `add_commit` call's arguments. -/
structure AddReq where
  hash : Bytes
  message : String
  author : String
  timestamp : Int
  parents : List Bytes
  deriving DecidableEq, Repr

/-- A DAG built by an arbitrary sequence of `add_commit` calls. -/
def buildDAG (reqs : List AddReq) : CommitDAG :=
  reqs.foldl (fun d r => add_commit d r.hash r.message r.author r.timestamp r.parents)
    emptyDAG

/-- The in-degree map of `topological_sort`, as a function (the
`unordered_map<string,int>` with `operator[]` defaulting to 0). -/
def initialDeg (ns : List CommitNode) : String → Int :=
  fun k =>
    match findNode ns k with
    | some n => (n.parents.length : Int)
    | none => 0

/-- `in_degree[k]--`. -/
def degDecr (deg : String → Int) (k : String) : String → Int :=
  fun k' => if k' = k then deg k' - 1 else deg k'

/-- The child-processing loop body of `topological_sort`
(dag.cpp:211-219): for each child key, lock the weak reference (which for a
live table is a lookup that always succeeds), decrement its in-degree, and
enqueue the child when the count reaches zero. -/
def processChildren (ns : List CommitNode) :
    List String → (String → Int) → List CommitNode → (String → Int) × List CommitNode
  | [], deg, pushed => (deg, pushed)
  | ck :: rest, deg, pushed =>
    match findNode ns ck with
    | none => processChildren ns rest deg pushed
    | some cn =>
      if degDecr deg ck ck = 0 then
        processChildren ns rest (degDecr deg ck) (pushed ++ [cn])
      else
        processChildren ns rest (degDecr deg ck) pushed

/-- The Kahn drain loop of `topological_sort` (dag.cpp:205-220).  The C++
loop has no fuel; the structural fuel used here never runs out when the
table's keys are distinct, because every node is enqueued at most once and
each iteration pops one node. -/
def kahnLoop (ns : List CommitNode) : Nat → List CommitNode → (String → Int) → List CommitNode
  | 0, _, _ => []
  | _ + 1, [], _ => []
  | fuel + 1, u :: queue', deg =>
    u :: kahnLoop ns fuel (queue' ++ (processChildren ns u.children deg []).2)
      (processChildren ns u.children deg []).1

/-- `CommitDAG::topological_sort` (dag.cpp:191-223): Kahn's algorithm —
initialize in-degrees to the parent counts, start from the nodes with no
parents, repeatedly pop and release children. -/
def topological_sort (d : CommitDAG) : List CommitNode :=
  kahnLoop d.nodes (d.nodes.length + 1)
    (d.nodes.filter (fun n => n.parents.length = 0)) (initialDeg d.nodes)

/-! #### Well-formedness of DAGs built by `add_commit` -/

/-- The keys of a node list. -/
def keysOf (l : List CommitNode) : List String := l.map (·.key)

/-- Structural invariants `add_commit` maintains: distinct keys, parent and
child links closed under the table, and parent/child multiplicity
consistency. -/
structure DAGWF (ns : List CommitNode) : Prop where
  nodup : (keysOf ns).Nodup
  consistent : ∀ n ∈ ns, ∀ m ∈ ns, n.parents.count m.key = m.children.count n.key
  childrenClosed : ∀ n ∈ ns, ∀ c ∈ n.children, c ∈ keysOf ns
  parentsClosed : ∀ n ∈ ns, ∀ p ∈ n.parents, p ∈ keysOf ns

lemma findNode_eq_none_iff (ns : List CommitNode) (k : String) :
    findNode ns k = none ↔ k ∉ keysOf ns := by
  induction ns with
  | nil => simp [findNode, keysOf]
  | cons n rest ih =>
    rw [show findNode (n :: rest) k = if n.key = k then some n else findNode rest k from rfl]
    by_cases hk : n.key = k
    · simp [hk, keysOf]
    · rw [if_neg hk]
      simp only [keysOf, List.map_cons, List.mem_cons] at ih ⊢
      rw [ih]
      constructor
      · intro hnot hcon
        rcases hcon with hcon | hcon
        · exact hk hcon.symm
        · exact hnot hcon
      · intro hnot hmem
        exact hnot (Or.inr hmem)

lemma findNode_isSome_iff (ns : List CommitNode) (k : String) :
    (findNode ns k).isSome = true ↔ k ∈ keysOf ns := by
  rw [Option.isSome_iff_ne_none]
  constructor
  · intro hne
    by_contra hmem
    exact hne ((findNode_eq_none_iff ns k).mpr hmem)
  · intro hmem hcon
    exact (findNode_eq_none_iff ns k).mp hcon hmem

lemma findNode_some_mem (ns : List CommitNode) (k : String) (n : CommitNode)
    (h : findNode ns k = some n) : n ∈ ns ∧ n.key = k := by
  induction ns with
  | nil => simp [findNode] at h
  | cons m rest ih =>
    rw [findNode] at h
    by_cases hk : m.key = k
    · rw [if_pos hk] at h
      exact ⟨by simp [Option.some_inj.mp h.symm], by rw [← Option.some_inj.mp h.symm] at hk; exact hk⟩
    · rw [if_neg hk] at h
      obtain ⟨h1, h2⟩ := ih h
      exact ⟨List.mem_cons_of_mem m h1, h2⟩

lemma findNode_of_mem (ns : List CommitNode) (hnd : (keysOf ns).Nodup) (n : CommitNode)
    (hn : n ∈ ns) : findNode ns n.key = some n := by
  induction ns with
  | nil => simp at hn
  | cons m rest ih =>
    rw [show findNode (m :: rest) n.key =
      if m.key = n.key then some m else findNode rest n.key from rfl]
    rcases List.mem_cons.mp hn with hn | hn
    · rw [if_pos (by rw [hn]), hn]
    · rw [show keysOf (m :: rest) = m.key :: keysOf rest from rfl] at hnd
      obtain ⟨hnotin, hrest⟩ := List.nodup_cons.mp hnd
      have hmk : m.key ≠ n.key := by
        intro hcon
        exact hnotin (hcon ▸ List.mem_map_of_mem (·.key) hn)
      rw [if_neg hmk]
      exact ih hrest hn

lemma foldl_linkChild (pkeys : List String) (k : String) :
    ∀ ns : List CommitNode,
      pkeys.foldl (fun a p => linkChild a p k) ns =
        ns.map (fun n =>
          { n with children := n.children ++ List.replicate (pkeys.count n.key) k }) := by
  induction pkeys with
  | nil =>
    intro ns
    simp
  | cons p rest ih =>
    intro ns
    rw [List.foldl_cons, ih (linkChild ns p k), linkChild, List.map_map]
    apply List.map_congr_left
    intro n _
    by_cases hp : n.key = p
    · have hbe : (p == n.key) = true := by rw [beq_iff_eq]; exact hp.symm
      have hcnt : (p :: rest).count n.key = rest.count n.key + 1 := by
        simp [List.count_cons, hbe]
      simp only [Function.comp, if_pos hp]
      simp [hcnt, List.replicate_succ, List.append_assoc]
    · have hbe : (p == n.key) = false := by
        rw [beq_eq_false_iff_ne]
        exact fun hcon => hp hcon.symm
      have hcnt : (p :: rest).count n.key = rest.count n.key := by
        simp [List.count_cons, hbe]
      simp only [Function.comp, if_neg hp]
      simp [hcnt]

lemma keysOf_append (a b : List CommitNode) : keysOf (a ++ b) = keysOf a ++ keysOf b := by
  simp [keysOf]

lemma DAGWF_add (d : CommitDAG) (hwf : DAGWF d.nodes) (hash : Bytes)
    (message author : String) (timestamp : Int) (parentHashes : List Bytes) :
    DAGWF ((add_commit d hash message author timestamp parentHashes).nodes) := by
  rw [add_commit]
  by_cases hpresent : (findNode d.nodes (svcs_hash_to_string hash)).isSome = true
  · rw [if_pos hpresent]; exact hwf
  · rw [if_neg hpresent]
    have hkfresh : svcs_hash_to_string hash ∉ keysOf d.nodes := by
      intro hcon
      exact hpresent ((findNode_isSome_iff d.nodes _).mpr hcon)
    have hpk_sub : ∀ p ∈ (parentHashes.map svcs_hash_to_string).filter
        (fun p => (findNode d.nodes p).isSome), p ∈ keysOf d.nodes := by
      intro p hp
      exact (findNode_isSome_iff d.nodes p).mp (List.mem_filter.mp hp).2
    simp only [foldl_linkChild]
    set k := svcs_hash_to_string hash with hkdef
    set pkeys := (parentHashes.map svcs_hash_to_string).filter
      (fun p => (findNode d.nodes p).isSome) with hpkdef
    set F := fun n : CommitNode =>
      { n with children := n.children ++ List.replicate (pkeys.count n.key) k } with hFdef
    set newNode : CommitNode :=
      { key := k, message := message, author := author, timestamp := timestamp,
        parents := pkeys, children := [] } with hNdef
    have hFkey : ∀ n : CommitNode, (F n).key = n.key := fun n => rfl
    have hkeys : keysOf (d.nodes.map F ++ [newNode]) = keysOf d.nodes ++ [k] := by
      rw [keysOf_append]
      congr 1
      simp [keysOf, List.map_map, Function.comp]
    have hkpk : k ∉ pkeys := fun hcon => hkfresh (hpk_sub k hcon)
    refine ⟨?_, ?_, ?_, ?_⟩
    · rw [hkeys, List.nodup_append]
      refine ⟨hwf.nodup, List.nodup_singleton k, ?_⟩
      intro a ha hb
      have hak : a = k := by simpa using hb
      exact hkfresh (hak ▸ ha)
    · intro n' hn' m' hm'
      rcases List.mem_append.mp hn' with hn' | hn' <;>
        rcases List.mem_append.mp hm' with hm' | hm'
      · obtain ⟨n, hn, hFn⟩ := List.mem_map.mp hn'
        obtain ⟨m, hm, hFm⟩ := List.mem_map.mp hm'
        subst hFn; subst hFm
        have hnk : n.key ≠ k := fun hcon => hkfresh (hcon ▸ List.mem_map_of_mem (·.key) hn)
        show n.parents.count m.key =
          (m.children ++ List.replicate (pkeys.count m.key) k).count n.key
        have hrep : (List.replicate (pkeys.count m.key) k).count n.key = 0 :=
          List.count_eq_zero.mpr (fun hcon => hnk (List.eq_of_mem_replicate hcon))
        rw [List.count_append, hrep, Nat.add_zero]
        exact hwf.consistent n hn m hm
      · obtain ⟨n, hn, hFn⟩ := List.mem_map.mp hn'
        subst hFn
        have hm'' : m' = newNode := by simpa using hm'
        subst hm''
        show n.parents.count k = List.count n.key []
        rw [List.count_nil, List.count_eq_zero]
        intro hcon
        exact hkfresh (hwf.parentsClosed n hn k hcon)
      · obtain ⟨m, hm, hFm⟩ := List.mem_map.mp hm'
        subst hFm
        have hn'' : n' = newNode := by simpa using hn'
        subst hn''
        show pkeys.count m.key =
          (m.children ++ List.replicate (pkeys.count m.key) k).count k
        have hck : m.children.count k = 0 := by
          rw [List.count_eq_zero]
          intro hcon
          exact hkfresh (hwf.childrenClosed m hm k hcon)
        rw [List.count_append, hck, List.count_replicate_self, Nat.zero_add]
      · have hn'' : n' = newNode := by simpa using hn'
        have hm'' : m' = newNode := by simpa using hm'
        subst hn''; subst hm''
        show pkeys.count k = List.count k []
        rw [List.count_nil, List.count_eq_zero]
        exact hkpk
    · intro n' hn' c hc
      rw [hkeys]
      rcases List.mem_append.mp hn' with hn' | hn'
      · obtain ⟨n, hn, hFn⟩ := List.mem_map.mp hn'
        subst hFn
        rcases List.mem_append.mp hc with hc | hc
        · exact List.mem_append_left _ (hwf.childrenClosed n hn c hc)
        · have : c = k := List.eq_of_mem_replicate hc
          exact this ▸ List.mem_append_right _ (by simp)
      · have hn'' : n' = newNode := by simpa using hn'
        subst hn''
        simp at hc
    · intro n' hn' p hp
      rw [hkeys]
      rcases List.mem_append.mp hn' with hn' | hn'
      · obtain ⟨n, hn, hFn⟩ := List.mem_map.mp hn'
        subst hFn
        exact List.mem_append_left _ (hwf.parentsClosed n hn p hp)
      · have hn'' : n' = newNode := by simpa using hn'
        subst hn''
        exact List.mem_append_left _ (hpk_sub p hp)

lemma buildDAG_wf_aux (reqs : List AddReq) :
    ∀ d : CommitDAG, DAGWF d.nodes →
      DAGWF ((reqs.foldl (fun d r =>
        add_commit d r.hash r.message r.author r.timestamp r.parents) d).nodes) := by
  induction reqs with
  | nil => intro d h; exact h
  | cons r rest ih =>
    intro d h
    exact ih _ (DAGWF_add d h r.hash r.message r.author r.timestamp r.parents)

lemma buildDAG_wf (reqs : List AddReq) : DAGWF (buildDAG reqs).nodes :=
  buildDAG_wf_aux reqs emptyDAG
    ⟨by simp [keysOf, emptyDAG], by simp [emptyDAG], by simp [emptyDAG], by simp [emptyDAG]⟩

/-! #### Counting infrastructure for the Kahn invariant -/

/-- Total number of child links pointing at `k` from the nodes of `M`. -/
def childCountIn (M : List CommitNode) (k : String) : Nat :=
  (M.map (fun u => u.children.count k)).sum

lemma childCountIn_append (A B : List CommitNode) (k : String) :
    childCountIn (A ++ B) k = childCountIn A k + childCountIn B k := by
  simp [childCountIn]

/-- Over a duplicate-free key list, summing the per-key counts of `P` never
exceeds `|P|`, and reaching `|P|` means every element of `P` is among the
keys. -/
lemma sum_count_le_length (ks : List String) (hnd : ks.Nodup) :
    ∀ P : List String,
      (ks.map (fun κ => P.count κ)).sum ≤ P.length ∧
      ((ks.map (fun κ => P.count κ)).sum = P.length → ∀ p ∈ P, p ∈ ks) := by
  intro P
  induction P with
  | nil => simp
  | cons p P' ih =>
    have hind : (ks.map (fun κ => if (p == κ) = true then 1 else 0)).sum =
        if p ∈ ks then 1 else 0 := by
      clear ih
      induction ks with
      | nil => simp
      | cons κ ks' ihk =>
        obtain ⟨hκnotin, hks'⟩ := List.nodup_cons.mp hnd
        rw [List.map_cons, List.sum_cons, ihk hks']
        by_cases hpκ : p = κ
        · subst hpκ
          simp [hκnotin]
        · simp [hpκ]
    have hsplit : (ks.map (fun κ => (p :: P').count κ)).sum =
        (ks.map (fun κ => P'.count κ)).sum +
        (ks.map (fun κ => if (p == κ) = true then 1 else 0)).sum := by
      rw [← List.sum_map_add]
      congr 1
      apply List.map_congr_left
      intro κ _
      rw [List.count_cons]
    rw [hsplit, hind]
    obtain ⟨ihle, iheq⟩ := ih
    constructor
    · by_cases hp : p ∈ ks <;> simp [hp] <;> omega
    · intro heq q hq
      by_cases hp : p ∈ ks
      · rw [if_pos hp] at heq
        rcases List.mem_cons.mp hq with hq | hq
        · exact hq ▸ hp
        · exact iheq (by simpa using heq) q hq
      · rw [if_neg hp] at heq
        simp only [Nat.add_zero, List.length_cons] at heq
        omega

lemma childCountIn_eq_sum (ns : List CommitNode) (hwf : DAGWF ns)
    (M : List CommitNode) (hM : ∀ u ∈ M, u ∈ ns) (cn : CommitNode) (hcn : cn ∈ ns) :
    childCountIn M cn.key = ((keysOf M).map (fun κ => cn.parents.count κ)).sum := by
  unfold childCountIn keysOf
  rw [List.map_map]
  congr 1
  apply List.map_congr_left
  intro u hu
  exact (hwf.consistent cn hcn u (hM u hu)).symm

lemma childCountIn_le (ns : List CommitNode) (hwf : DAGWF ns)
    (M : List CommitNode) (hM : ∀ u ∈ M, u ∈ ns) (hMnd : (keysOf M).Nodup)
    (cn : CommitNode) (hcn : cn ∈ ns) :
    childCountIn M cn.key ≤ cn.parents.length := by
  rw [childCountIn_eq_sum ns hwf M hM cn hcn]
  exact (sum_count_le_length (keysOf M) hMnd cn.parents).1

lemma childCountIn_complete (ns : List CommitNode) (hwf : DAGWF ns)
    (M : List CommitNode) (hM : ∀ u ∈ M, u ∈ ns) (hMnd : (keysOf M).Nodup)
    (cn : CommitNode) (hcn : cn ∈ ns)
    (heq : childCountIn M cn.key = cn.parents.length) :
    ∀ p ∈ cn.parents, p ∈ keysOf M := by
  rw [childCountIn_eq_sum ns hwf M hM cn hcn] at heq
  exact (sum_count_le_length (keysOf M) hMnd cn.parents).2 heq

/-! #### The Kahn loop invariant -/

/-- Invariant of the drain loop: everything live is a table node; live keys
are distinct; the in-degree of every node is its parent count minus the
child links from already-output nodes; queued nodes have all parents
output; and every output node's parents appear strictly earlier. -/
structure KahnInv (ns : List CommitNode) (result queue : List CommitNode)
    (deg : String → Int) : Prop where
  subR : ∀ u ∈ result, u ∈ ns
  subQ : ∀ u ∈ queue, u ∈ ns
  nodupKeys : (keysOf (result ++ queue)).Nodup
  degSpec : ∀ n ∈ ns, deg n.key =
    (n.parents.length : Int) - (childCountIn result n.key : Int)
  queueParents : ∀ u ∈ queue, ∀ p ∈ u.parents, p ∈ keysOf result
  resultOrder : ∀ i (hi : i < result.length), ∀ p ∈ (result.get ⟨i, hi⟩).parents,
    p ∈ keysOf (result.take i)

lemma keysOf_take_subset (result : List CommitNode) (i : Nat) :
    ∀ p ∈ keysOf (result.take i), p ∈ keysOf result := by
  intro p hp
  unfold keysOf at hp ⊢
  obtain ⟨x, hx, hxp⟩ := List.mem_map.mp hp
  exact hxp ▸ List.mem_map_of_mem (·.key) (List.mem_of_mem_take hx)

lemma result_parents_sub (result : List CommitNode)
    (hro : ∀ i (hi : i < result.length), ∀ p ∈ (result.get ⟨i, hi⟩).parents,
      p ∈ keysOf (result.take i)) :
    ∀ x ∈ result, ∀ p ∈ x.parents, p ∈ keysOf result := by
  intro x hx p hp
  obtain ⟨⟨i, hi⟩, hget⟩ := List.mem_iff_get.mp hx
  exact keysOf_take_subset result i p (hro i hi p (by rw [hget]; exact hp))

/-- No child of the node being popped is currently live (already output or
queued): a live node's parents are all output, but the popped node — one of
its parents by consistency — is still in the queue. -/
lemma child_not_live (ns : List CommitNode) (hwf : DAGWF ns)
    (result : List CommitNode) (u : CommitNode) (queue' : List CommitNode)
    (hnodupLive : (keysOf (result ++ u :: queue')).Nodup)
    (hsubR : ∀ x ∈ result, x ∈ ns) (hu : u ∈ ns) (hsubQ : ∀ x ∈ queue', x ∈ ns)
    (hqp : ∀ x ∈ u :: queue', ∀ p ∈ x.parents, p ∈ keysOf result)
    (hrp : ∀ x ∈ result, ∀ p ∈ x.parents, p ∈ keysOf result)
    (ck : String) (hck : ck ∈ u.children) :
    ∀ x ∈ result ++ u :: queue', x.key ≠ ck := by
  intro x hx hcon
  have hxns : x ∈ ns := by
    rcases List.mem_append.mp hx with hx | hx
    · exact hsubR x hx
    · rcases List.mem_cons.mp hx with hx | hx
      · exact hx ▸ hu
      · exact hsubQ x hx
  have hcount : 0 < u.children.count x.key := by
    rw [hcon]
    exact List.count_pos_iff.mpr hck
  have hupx : u.key ∈ x.parents := by
    rw [← List.count_pos_iff]
    rw [hwf.consistent x hxns u hu]
    exact hcount
  have hures : u.key ∈ keysOf result := by
    rcases List.mem_append.mp hx with hx | hx
    · exact hrp x hx u.key hupx
    · exact hqp x hx u.key hupx
  rw [keysOf_append, List.nodup_append] at hnodupLive
  exact hnodupLive.2.2 hures (by simp [keysOf])

/-- Specification of the child-processing loop: starting from the state
right after `u` was appended to the output (with the pending decrements of
`rest` still to be applied), it finishes with the in-degrees matching the
new output, and every node it enqueued is a table node whose key is fresh
among live nodes and whose parents are all in the output. -/
lemma processChildren_spec (ns : List CommitNode) (hwf : DAGWF ns)
    (result : List CommitNode) (u : CommitNode) (queue' : List CommitNode)
    (hnodupLive : (keysOf (result ++ u :: queue')).Nodup)
    (hsubR : ∀ x ∈ result, x ∈ ns) (hu : u ∈ ns) (hsubQ : ∀ x ∈ queue', x ∈ ns)
    (hqp : ∀ x ∈ u :: queue', ∀ p ∈ x.parents, p ∈ keysOf result)
    (hrp : ∀ x ∈ result, ∀ p ∈ x.parents, p ∈ keysOf result) :
    ∀ (rest : List String) (deg : String → Int) (pushed : List CommitNode),
      (∀ c ∈ rest, c ∈ u.children) →
      (∀ n ∈ ns, deg n.key = (n.parents.length : Int)
        - (childCountIn (result ++ [u]) n.key : Int) + (rest.count n.key : Int)) →
      (∀ x ∈ pushed, x ∈ ns) →
      (keysOf ((result ++ u :: queue') ++ pushed)).Nodup →
      (∀ x ∈ pushed, ∀ p ∈ x.parents, p ∈ keysOf (result ++ [u])) →
      (∀ x ∈ pushed, x.key ∈ u.children) →
      (∀ x ∈ pushed, rest.count x.key = 0) →
      (∀ n ∈ ns, (processChildren ns rest deg pushed).1 n.key =
          (n.parents.length : Int) - (childCountIn (result ++ [u]) n.key : Int)) ∧
      (∀ x ∈ (processChildren ns rest deg pushed).2, x ∈ ns) ∧
      (keysOf ((result ++ u :: queue') ++ (processChildren ns rest deg pushed).2)).Nodup ∧
      (∀ x ∈ (processChildren ns rest deg pushed).2, ∀ p ∈ x.parents,
          p ∈ keysOf (result ++ [u])) ∧
      (∀ x ∈ (processChildren ns rest deg pushed).2, x.key ∈ u.children) := by
  intro rest
  induction rest with
  | nil =>
    intro deg pushed _ hdeg hpush hnodup hpar hchild _
    refine ⟨?_, hpush, hnodup, hpar, hchild⟩
    intro n hn
    have hd := hdeg n hn
    simpa using hd
  | cons ck rest' ih =>
    intro deg pushed hrestsub hdeg hpush hnodup hpar hchild hcount0
    have hckchild : ck ∈ u.children := hrestsub ck (by simp)
    have hckkeys : ck ∈ keysOf ns := hwf.childrenClosed u hu ck hckchild
    obtain ⟨cn, hcnmem, hcnkey⟩ : ∃ cn, cn ∈ ns ∧ cn.key = ck := by
      obtain ⟨x, hx, hxk⟩ := List.mem_map.mp hckkeys
      exact ⟨x, hx, hxk⟩
    have hfind : findNode ns ck = some cn := by
      rw [← hcnkey]
      exact findNode_of_mem ns hwf.nodup cn hcnmem
    have hrestsub' : ∀ c ∈ rest', c ∈ u.children :=
      fun c hc => hrestsub c (List.mem_cons_of_mem ck hc)
    have hdeg' : ∀ n ∈ ns, degDecr deg ck n.key =
        (n.parents.length : Int) - (childCountIn (result ++ [u]) n.key : Int)
          + (rest'.count n.key : Int) := by
      intro n hn
      have hd := hdeg n hn
      show (if n.key = ck then deg n.key - 1 else deg n.key) = _
      by_cases hnk : n.key = ck
      · rw [if_pos hnk, hd]
        have hcnt : (ck :: rest').count n.key = rest'.count n.key + 1 := by
          simp [List.count_cons, hnk]
        rw [hcnt]
        push_cast
        ring
      · rw [if_neg hnk, hd]
        have hnk' : ¬(ck = n.key) := fun hcon => hnk hcon.symm
        have hcnt : (ck :: rest').count n.key = rest'.count n.key := by
          simp [List.count_cons, hnk, hnk']
        rw [hcnt]
    have hcount0' : ∀ x ∈ pushed, rest'.count x.key = 0 := by
      intro x hx
      have h0 := hcount0 x hx
      have hle : rest'.count x.key ≤ (ck :: rest').count x.key :=
        List.Sublist.count_le (List.sublist_cons_self ck rest') x.key
      omega
    by_cases hpc : degDecr deg ck ck = 0
    · -- the child's counter reached zero: it is enqueued
      have hnodupLive' : (keysOf (result ++ u :: queue')).Nodup := hnodupLive
      have hMnd : (keysOf (result ++ [u])).Nodup := by
        have hsl : (result ++ [u]).Sublist ((result ++ u :: queue') ++ pushed) := by
          have h1 : (result ++ [u]).Sublist (result ++ u :: queue') :=
            List.Sublist.append_left
              (List.cons_sublist_cons.mpr (List.nil_sublist queue')) result
          exact h1.trans (List.sublist_append_left _ _)
        have hkeysl : (keysOf (result ++ [u])).Sublist
            (keysOf ((result ++ u :: queue') ++ pushed)) :=
          List.Sublist.map (fun n : CommitNode => n.key) hsl
        exact hnodup.sublist hkeysl
      have hMsub : ∀ x ∈ result ++ [u], x ∈ ns := by
        intro x hx
        rcases List.mem_append.mp hx with hx | hx
        · exact hsubR x hx
        · have : x = u := by simpa using hx
          exact this ▸ hu
      have hdck := hdeg' cn hcnmem
      rw [hcnkey] at hdck
      have hFle : childCountIn (result ++ [u]) ck ≤ cn.parents.length := by
        have h := childCountIn_le ns hwf (result ++ [u]) hMsub hMnd cn hcnmem
        rw [hcnkey] at h
        exact h
      have hccEq : childCountIn (result ++ [u]) ck = cn.parents.length := by omega
      have hcnt0 : rest'.count ck = 0 := by omega
      have hparcn : ∀ p ∈ cn.parents, p ∈ keysOf (result ++ [u]) := by
        have h := childCountIn_complete ns hwf (result ++ [u]) hMsub hMnd cn hcnmem
          (by rw [hcnkey]; exact hccEq)
        exact h
      have hnotlive : cn.key ∉ keysOf (result ++ u :: queue') := by
        intro hcon
        obtain ⟨x, hx, hxk⟩ := List.mem_map.mp hcon
        exact child_not_live ns hwf result u queue' hnodupLive' hsubR hu hsubQ hqp hrp
          ck hckchild x hx (by rw [hxk, hcnkey])
      have hnotpushed : cn.key ∉ keysOf pushed := by
        intro hcon
        obtain ⟨x, hx, hxk⟩ := List.mem_map.mp hcon
        have h0 := hcount0 x hx
        rw [hxk, hcnkey] at h0
        have : (ck :: rest').count ck = rest'.count ck + 1 := by
          simp [List.count_cons]
        omega
      have hnodupNew : (keysOf ((result ++ u :: queue') ++ (pushed ++ [cn]))).Nodup := by
        have hre : keysOf ((result ++ u :: queue') ++ (pushed ++ [cn])) =
            (keysOf (result ++ u :: queue') ++ keysOf pushed) ++ [cn.key] := by
          simp [keysOf_append, keysOf, List.append_assoc]
        rw [hre, List.nodup_append]
        refine ⟨by rw [← keysOf_append]; exact hnodup, List.nodup_singleton _, ?_⟩
        intro a ha hb
        have hak : a = cn.key := by simpa using hb
        rcases List.mem_append.mp ha with ha | ha
        · exact hnotlive (hak ▸ ha)
        · exact hnotpushed (hak ▸ ha)
      have hpush' : ∀ x ∈ pushed ++ [cn], x ∈ ns := by
        intro x hx
        rcases List.mem_append.mp hx with hx | hx
        · exact hpush x hx
        · have : x = cn := by simpa using hx
          exact this ▸ hcnmem
      have hpar' : ∀ x ∈ pushed ++ [cn], ∀ p ∈ x.parents, p ∈ keysOf (result ++ [u]) := by
        intro x hx
        rcases List.mem_append.mp hx with hx | hx
        · exact hpar x hx
        · have : x = cn := by simpa using hx
          exact this ▸ hparcn
      have hchild' : ∀ x ∈ pushed ++ [cn], x.key ∈ u.children := by
        intro x hx
        rcases List.mem_append.mp hx with hx | hx
        · exact hchild x hx
        · have : x = cn := by simpa using hx
          rw [this, hcnkey]
          exact hckchild
      have hcount0'' : ∀ x ∈ pushed ++ [cn], rest'.count x.key = 0 := by
        intro x hx
        rcases List.mem_append.mp hx with hx | hx
        · exact hcount0' x hx
        · have : x = cn := by simpa using hx
          rw [this, hcnkey]
          exact hcnt0
      have hres := ih (degDecr deg ck) (pushed ++ [cn]) hrestsub' hdeg' hpush'
        hnodupNew hpar' hchild' hcount0''
      have hstep : processChildren ns (ck :: rest') deg pushed =
          processChildren ns rest' (degDecr deg ck) (pushed ++ [cn]) := by
        simp only [processChildren, hfind]
        rw [if_pos hpc]
      rw [hstep]
      exact hres
    · have hres := ih (degDecr deg ck) pushed hrestsub' hdeg' hpush
        hnodup hpar hchild hcount0'
      have hstep : processChildren ns (ck :: rest') deg pushed =
          processChildren ns rest' (degDecr deg ck) pushed := by
        simp only [processChildren, hfind]
        rw [if_neg hpc]
      rw [hstep]
      exact hres

/-- One iteration of the drain loop preserves the invariant. -/
lemma kahn_step (ns : List CommitNode) (hwf : DAGWF ns)
    (result : List CommitNode) (u : CommitNode) (queue' : List CommitNode)
    (deg : String → Int) (hinv : KahnInv ns result (u :: queue') deg) :
    KahnInv ns (result ++ [u]) (queue' ++ (processChildren ns u.children deg []).2)
      (processChildren ns u.children deg []).1 := by
  have hu : u ∈ ns := hinv.subQ u (by simp)
  have hsubQ' : ∀ x ∈ queue', x ∈ ns := fun x hx => hinv.subQ x (List.mem_cons_of_mem u hx)
  have hrp : ∀ x ∈ result, ∀ p ∈ x.parents, p ∈ keysOf result :=
    result_parents_sub result hinv.resultOrder
  have hdeg0 : ∀ n ∈ ns, deg n.key = (n.parents.length : Int)
      - (childCountIn (result ++ [u]) n.key : Int) + (u.children.count n.key : Int) := by
    intro n hn
    have hd := hinv.degSpec n hn
    have hsplit : childCountIn (result ++ [u]) n.key =
        childCountIn result n.key + u.children.count n.key := by
      rw [childCountIn_append]
      simp [childCountIn]
    rw [hd, hsplit]
    push_cast
    ring
  have hspec := processChildren_spec ns hwf result u queue' hinv.nodupKeys hinv.subR hu
    hsubQ' hinv.queueParents hrp u.children deg [] (fun c hc => hc) hdeg0
    (by simp) (by simpa using hinv.nodupKeys) (by simp) (by simp) (by simp)
  obtain ⟨hdegf, hpushns, hnodupf, hparf, hchildf⟩ := hspec
  have hq : ∀ x ∈ queue' ++ (processChildren ns u.children deg []).2, x ∈ ns := by
    intro x hx
    rcases List.mem_append.mp hx with hx | hx
    · exact hsubQ' x hx
    · exact hpushns x hx
  refine ⟨?_, hq, ?_, hdegf, ?_, ?_⟩
  · intro x hx
    rcases List.mem_append.mp hx with hx | hx
    · exact hinv.subR x hx
    · have : x = u := by simpa using hx
      exact this ▸ hu
  · have hshape : (result ++ [u]) ++ (queue' ++ (processChildren ns u.children deg []).2) =
        (result ++ u :: queue') ++ (processChildren ns u.children deg []).2 := by
      simp
    rw [hshape]
    exact hnodupf
  · intro x hx p hp
    rcases List.mem_append.mp hx with hx | hx
    · have : p ∈ keysOf result :=
        hinv.queueParents x (List.mem_cons_of_mem u hx) p hp
      rw [keysOf_append]
      exact List.mem_append_left _ this
    · exact hparf x hx p hp
  · intro i hi p hp
    rw [List.length_append, List.length_singleton] at hi
    by_cases hilt : i < result.length
    · have hget : (result ++ [u]).get ⟨i, by rw [List.length_append]; omega⟩ =
          result.get ⟨i, hilt⟩ := by
        rw [List.get_eq_getElem, List.get_eq_getElem, List.getElem_append_left]
      rw [hget] at hp
      have htk : (result ++ [u]).take i = result.take i := by
        rw [List.take_append_eq_append_take]
        have : i - result.length = 0 := by omega
        rw [this]
        simp
      rw [htk]
      exact hinv.resultOrder i hilt p hp
    · have hieq : i = result.length := by omega
      subst hieq
      have hget : (result ++ [u]).get ⟨result.length, by simp⟩ = u := by
        rw [List.get_eq_getElem]
        simp
      rw [hget] at hp
      have htk : (result ++ [u]).take result.length = result := by
        rw [List.take_append_eq_append_take]
        simp
      rw [htk]
      exact hinv.queueParents u (by simp) p hp

/-- The drain loop only ever appends nodes whose parents are already in the
output: the whole output is duplicate-free, drawn from the table, and
parent-closed prefix-wise. -/
lemma kahnLoop_good (ns : List CommitNode) (hwf : DAGWF ns) :
    ∀ (fuel : Nat) (result queue : List CommitNode) (deg : String → Int),
      KahnInv ns result queue deg →
      (∀ u ∈ result ++ kahnLoop ns fuel queue deg, u ∈ ns) ∧
      (keysOf (result ++ kahnLoop ns fuel queue deg)).Nodup ∧
      (∀ i (hi : i < (result ++ kahnLoop ns fuel queue deg).length),
        ∀ p ∈ ((result ++ kahnLoop ns fuel queue deg).get ⟨i, hi⟩).parents,
          p ∈ keysOf ((result ++ kahnLoop ns fuel queue deg).take i)) := by
  intro fuel
  induction fuel with
  | zero =>
    intro result queue deg hinv
    have hempty : kahnLoop ns 0 queue deg = [] := rfl
    rw [hempty, List.append_nil]
    refine ⟨hinv.subR, ?_, hinv.resultOrder⟩
    exact hinv.nodupKeys.sublist
      (List.Sublist.map (fun n : CommitNode => n.key) (List.sublist_append_left _ _))
  | succ fuel ih =>
    intro result queue deg hinv
    cases queue with
    | nil =>
      have hempty : kahnLoop ns (fuel + 1) [] deg = [] := rfl
      rw [hempty, List.append_nil]
      refine ⟨hinv.subR, ?_, hinv.resultOrder⟩
      exact hinv.nodupKeys.sublist
        (List.Sublist.map (fun n : CommitNode => n.key) (List.sublist_append_left _ _))
    | cons u queue' =>
      have hloopeq : kahnLoop ns (fuel + 1) (u :: queue') deg =
          u :: kahnLoop ns fuel (queue' ++ (processChildren ns u.children deg []).2)
            (processChildren ns u.children deg []).1 := rfl
      have hres := ih (result ++ [u])
        (queue' ++ (processChildren ns u.children deg []).2)
        (processChildren ns u.children deg []).1
        (kahn_step ns hwf result u queue' deg hinv)
      have hshape : result ++ kahnLoop ns (fuel + 1) (u :: queue') deg =
          (result ++ [u]) ++ kahnLoop ns fuel
            (queue' ++ (processChildren ns u.children deg []).2)
            (processChildren ns u.children deg []).1 := by
        rw [hloopeq]
        simp
      rw [hshape]
      exact hres

/-- The loop's starting state satisfies the invariant. -/
lemma kahn_init (ns : List CommitNode) (hwf : DAGWF ns) :
    KahnInv ns [] (ns.filter (fun n => n.parents.length = 0)) (initialDeg ns) := by
  refine ⟨?_, ?_, ?_, ?_, ?_, ?_⟩
  · intro u hu
    simp at hu
  · intro u hu
    exact List.mem_of_mem_filter hu
  · rw [List.nil_append]
    exact hwf.nodup.sublist
      (List.Sublist.map (fun n : CommitNode => n.key) (List.filter_sublist ns))
  · intro n hn
    have hfind : findNode ns n.key = some n := findNode_of_mem ns hwf.nodup n hn
    show initialDeg ns n.key = _
    rw [initialDeg, hfind]
    simp [childCountIn]
  · intro u hu p hp
    have hlen := (List.mem_filter.mp hu).2
    simp only [decide_eq_true_eq] at hlen
    rw [List.length_eq_zero] at hlen
    rw [hlen] at hp
    simp at hp
  · intro i hi
    simp at hi

/-- C7 — confirmed.  For every DAG built by any sequence of `add_commit`
calls, every node in the output of `topological_sort` appears strictly
before all of its children (equivalently, every parent precedes every
commit that lists it as a parent). -/
theorem C7_topological_order (reqs : List AddReq) (i j : Nat)
    (hi : i < (topological_sort (buildDAG reqs)).length)
    (hj : j < (topological_sort (buildDAG reqs)).length)
    (hchild : ((topological_sort (buildDAG reqs)).get ⟨j, hj⟩).key ∈
      ((topological_sort (buildDAG reqs)).get ⟨i, hi⟩).children) :
    i < j := by
  have hwf := buildDAG_wf reqs
  obtain ⟨hsub, hnodup, horder⟩ := kahnLoop_good (buildDAG reqs).nodes hwf
    ((buildDAG reqs).nodes.length + 1) []
    ((buildDAG reqs).nodes.filter (fun n => n.parents.length = 0))
    (initialDeg (buildDAG reqs).nodes) (kahn_init (buildDAG reqs).nodes hwf)
  rw [List.nil_append] at hsub hnodup horder
  have houteq : topological_sort (buildDAG reqs) =
      kahnLoop (buildDAG reqs).nodes ((buildDAG reqs).nodes.length + 1)
        ((buildDAG reqs).nodes.filter (fun n => n.parents.length = 0))
        (initialDeg (buildDAG reqs).nodes) := rfl
  rw [← houteq] at hsub hnodup horder
  set out := topological_sort (buildDAG reqs) with hout
  have huns : out.get ⟨i, hi⟩ ∈ (buildDAG reqs).nodes := hsub _ (List.get_mem out i hi)
  have hcns : out.get ⟨j, hj⟩ ∈ (buildDAG reqs).nodes := hsub _ (List.get_mem out j hj)
  have hparent : (out.get ⟨i, hi⟩).key ∈ (out.get ⟨j, hj⟩).parents := by
    rw [← List.count_pos_iff, hwf.consistent (out.get ⟨j, hj⟩) hcns (out.get ⟨i, hi⟩) huns]
    exact List.count_pos_iff.mpr hchild
  have hintake : (out.get ⟨i, hi⟩).key ∈ keysOf (out.take j) :=
    horder j hj _ hparent
  obtain ⟨x, hx, hxk⟩ := List.mem_map.mp hintake
  obtain ⟨⟨i', hi'len⟩, hget⟩ := List.mem_iff_get.mp hx
  have hi'j : i' < j := by
    have := hi'len
    rw [List.length_take] at this
    omega
  have hi'out : i' < out.length := by
    have := hi'len
    rw [List.length_take] at this
    omega
  have hxout : out.get ⟨i', hi'out⟩ = x := by
    rw [← hget, List.get_eq_getElem, List.get_eq_getElem, List.getElem_take]
  have hkeyeq : (out.map (·.key)).get ⟨i', by simpa using hi'out⟩ =
      (out.map (·.key)).get ⟨i, by simpa using hi⟩ := by
    rw [List.get_eq_getElem, List.get_eq_getElem, List.getElem_map, List.getElem_map]
    show (out[i']).key = (out[i]).key
    have h1 : out[i'] = out.get ⟨i', hi'out⟩ := rfl
    have h2 : out[i] = out.get ⟨i, hi⟩ := rfl
    rw [h1, h2, hxout, hxk]
  have hnodup' : (out.map (·.key)).Nodup := hnodup
  have hieq : i' = i := by
    have h := (List.Nodup.get_inj_iff hnodup').mp hkeyeq
    exact congrArg Fin.val h
  omega

/-- A root commit request for the C7 witness DAG. -/
def demoRoot : AddReq :=
  { hash := List.replicate 32 0, message := "root", author := "a", timestamp := 10,
    parents := [] }

/-- A child commit request (parent = the root) for the C7 witness DAG. -/
def demoChild : AddReq :=
  { hash := List.replicate 32 1, message := "child", author := "a", timestamp := 20,
    parents := [List.replicate 32 0] }

/-- Witness for C7 on the two-node DAG root → child: the sort outputs the
root at index 0 and the child at index 1, and the theorem yields 0 < 1. -/
theorem C7_topological_order_witness :
    (topological_sort (buildDAG [demoRoot, demoChild])).length = 2 ∧ 0 < 1 :=
  ⟨by decide,
    C7_topological_order [demoRoot, demoChild] 0 1 (by decide) (by decide) (by decide)⟩

end SVCS
